import Mathlib

/- Verification development for the antimodular blender-renderer repository.

   The definitions below are a shallow embedding of the two source files
   src/BlenderRenderGui.py and src/render_script.py.  Python strings are
   modelled as Lean String values; Python str.lower and the regex digit
   class are modelled over ASCII characters; wall-clock instants returned
   by time.time() are modelled as exact rationals supplied as parameters;
   the QProcess/QProgressBar collaborators are modelled by their documented
   Qt semantics where the Python code observably depends on them. -/

namespace BlenderRenderer

/-- ASCII model of Python str.lower applied to one character. -/
def pyLower (c : Char) : Char :=
  if 'A' ≤ c ∧ c ≤ 'Z' then Char.ofNat (c.toNat + 32) else c

/-- Lowercase a character list (model of str.lower). -/
def lowerChars (cs : List Char) : List Char := cs.map pyLower

/-- Lowercase a string (model of str.lower). -/
def pyLowerStr (s : String) : String := String.mk (lowerChars s.data)

/-- Numeric value of a digit string, as computed by Python int() on a
digit-only string (model of int(match.group(1))). -/
def natOfDigits (cs : List Char) : Nat :=
  cs.foldl (fun a c => 10 * a + (c.toNat - '0'.toNat)) 0

/-- Maximal run of ASCII digits at the end of a character list. -/
def trailingDigits (cs : List Char) : List Char :=
  (cs.reverse.takeWhile Char.isDigit).reverse

/-- Case-insensitively strip a literal suffix, returning the remaining core
of the name (used to model the anchored literal tail of the frame regexes,
compiled with re.IGNORECASE in BlenderRenderGui.py lines 510-517). -/
def stripSuffixCI (tail cs : List Char) : Option (List Char) :=
  if cs.length ≥ tail.length ∧
      lowerChars (cs.drop (cs.length - tail.length)) = lowerChars tail then
    some (cs.take (cs.length - tail.length))
  else none

/-- Model of one frame-pattern regex match plus int(group(1)): the pattern
is the anchored, case-insensitive regex dot-star-lazy (digits) tail, whose
group(1) is the maximal digit run immediately before the literal tail.
Returns the captured frame number when the name matches. -/
def extractFrameNum (tail : String) (name : String) : Option Nat :=
  match stripSuffixCI tail.data name.data with
  | none => none
  | some core =>
    let ds := trailingDigits core
    if ds = [] then none else some (natOfDigits ds)

/-- Literal tails of the three frame patterns of
adjust_start_frame_based_on_existing_output (standard, left-eye, right-eye),
for image format fmt. -/
def framePatternTails (fmt : String) : List String :=
  ["." ++ fmt, "_L." ++ fmt, "_R." ++ fmt]

/-- Frame numbers contributed by one filename: the code tries all three
patterns without breaking, so a file can contribute through each pattern
that matches (BlenderRenderGui.py lines 521-529). -/
def fileFrameNums (fmt : String) (name : String) : List Nat :=
  (framePatternTails fmt).filterMap (fun t => extractFrameNum t name)

/-- Suffix test on character lists (model of str.endswith). -/
def listEndsWith (sfx cs : List Char) : Bool :=
  decide (cs.drop (cs.length - sfx.length) = sfx ∧ sfx.length ≤ cs.length)

/-- Extension filter of the Output Inspector:
f.lower().endswith("." + image_format.lower()) (line 499-503). -/
def hasImageExt (fmt : String) (name : String) : Bool :=
  listEndsWith (lowerChars ('.' :: fmt.data)) (lowerChars name.data)

/-- Python range(s, e + 1) over integers, as a list. -/
def rangeList (s e : Int) : List Int :=
  (List.range (e + 1 - s).toNat).map (fun (i : Nat) => s + (i : Int))

/-- Status text shown on a queue item widget.  The formatted label strings
of BlenderRenderGui.py are abstracted to this enumeration; the completed
label carries the frame count and crash count that the code interpolates
into the text (line 806-808). -/
inductive WidgetStatus where
  | ready
  | queued
  | rendering
  | alreadyRendered
  | completed (framesRendered : Int) (crashes : Nat)
  | cancelled
  | failedWithError
  deriving DecidableEq

/-- Model of QProgressBar state: minimum, maximum and current value. -/
structure ProgressBarState where
  minimum : Int
  maximum : Int
  value : Int
  deriving DecidableEq

/-- Documented Qt semantics of QProgressBar.setValue: a value outside the
minimum..maximum range is ignored (the stored value is unchanged), except
in the special busy-indicator configuration minimum = maximum = 0. -/
def ProgressBarState.setValue (b : ProgressBarState) (v : Int) : ProgressBarState :=
  if (v > b.maximum ∨ v < b.minimum) ∧ ¬(b.maximum = 0 ∧ b.minimum = 0) then b
  else { b with value := v }

/-- The QProcess error codes handled by handle_process_error. -/
inductive ProcError where
  | failedToStart
  | crashed
  | timedout
  | writeError
  | readError
  | unknownError
  deriving DecidableEq

/-- Content of the statistics label: either the calculating placeholder or
the computed numbers (average frame time, elapsed, estimated remaining,
estimated completion instant), abstracting the formatted text of
update_time_statistics. -/
inductive StatsText where
  | calculating
  | statsReport (avgFrameTime elapsed estimatedRemaining completionTime : ℚ)
  deriving DecidableEq

/-- State of the DragDropWindow supervisor (the mutable attributes of the
class in BlenderRenderGui.py that the modelled methods read or write),
together with a snapshot of the output directory used by the Output
Inspector.  processRunning models whether self.process is a live QProcess;
probing models whether a probe subprocess has been started for a next file
by process_next_file. -/
structure GuiState where
  processRunning : Bool
  start_frame : Int
  end_frame : Int
  total_frames : Int
  current_frame : Int
  output_dir : String
  image_format : String
  current_blend_file : String
  crash_count : Nat
  file_queue : List String
  widgets : List (String × WidgetStatus)
  currently_rendering : Bool
  probing : Option String
  render_start_time : ℚ
  frame_start_time : ℚ
  frame_times : List ℚ
  missing_frames : Option (List Int)
  bar : ProgressBarState
  stats_label : StatsText
  total_scenes_rendered : Nat
  total_frames_rendered : Int
  total_render_time : ℚ
  output_dir_exists : Bool
  output_dir_files : List String
  deriving DecidableEq

/-- Files of the output directory whose name passes the extension filter
(BlenderRenderGui.py lines 499-505). -/
def filteredImageFiles (st : GuiState) : List String :=
  st.output_dir_files.filter (fun f => hasImageExt st.image_format f)

/-- All frame numbers recovered from the filtered filenames through the
three patterns (lines 520-529); list membership models the Python set. -/
def renderedFrames (st : GuiState) : List Int :=
  (filteredImageFiles st).flatMap
    (fun f => (fileFrameNums st.image_format f).map Int.ofNat)

/-- The missing-frame list missing_frames computed at lines 536-539:
frames of range(start_frame, end_frame + 1) not in rendered_frames. -/
def missingOf (st : GuiState) : List Int :=
  (rangeList st.start_frame st.end_frame).filter
    (fun fr => decide (fr ∉ renderedFrames st))

/-- Embedding of adjust_start_frame_based_on_existing_output
(BlenderRenderGui.py lines 494-561).  The three early returns keep the
state unchanged; otherwise start_frame, possibly missing_frames, and
total_frames are updated exactly as in the source. -/
def adjust_start_frame_based_on_existing_output (st : GuiState) : GuiState :=
  if st.output_dir = "" ∨ st.output_dir_exists = false then st
  else if filteredImageFiles st = [] then st
  else if renderedFrames st = [] then st
  else
    let missing := missingOf st
    let st1 :=
      if missing = [] then
        { st with start_frame := st.end_frame + 1 }
      else
        let st0 := { st with start_frame := missing.headD 0 }
        if missing.length > 1 ∧
            missing.getLastD 0 - missing.headD 0 + 1 ≠ (missing.length : Int) then
          { st0 with missing_frames := some missing }
        else
          { st0 with missing_frames := none }
    { st1 with total_frames := max 0 (st1.end_frame - st1.start_frame + 1) }

/-- Defaults of DragDropWindow.__init__ (lines 142-175) for the modelled
attributes, with an initially absent output directory snapshot.  The
source object has no missing_frames attribute until the Output Inspector
first assigns it; the none value models the absent attribute. -/
def initState : GuiState where
  processRunning := false
  start_frame := 1
  end_frame := 250
  total_frames := 250
  current_frame := 0
  output_dir := ""
  image_format := "png"
  current_blend_file := ""
  crash_count := 0
  file_queue := []
  widgets := []
  currently_rendering := false
  probing := none
  render_start_time := 0
  frame_start_time := 0
  frame_times := []
  missing_frames := none
  bar := { minimum := 0, maximum := 0, value := 0 }
  stats_label := StatsText.calculating
  total_scenes_rendered := 0
  total_frames_rendered := 0
  total_render_time := 0
  output_dir_exists := false
  output_dir_files := []

/-- Concrete state for the C10 witness: an existing output directory that
contains no file with the png extension. -/
def stateNoMatchingFiles : GuiState :=
  { initState with
    output_dir := "/out"
    output_dir_exists := true
    output_dir_files := ["notes.txt"]
    start_frame := 1
    end_frame := 3 }

/-- Concrete state for the C2 counterexample and C9: every frame of the
range 1..2 is on disk, while a stale missing_frames list from an earlier
job is still stored on the object. -/
def stateLeftoverMissing : GuiState :=
  { initState with
    start_frame := 1
    end_frame := 2
    output_dir := "/out"
    output_dir_exists := true
    output_dir_files := ["frame_00001.png", "frame_00002.png"]
    missing_frames := some [3, 6] }

/-- Concrete state for the C2 witness: rendered frames 1,2,4,5 of range
1..6 leave the non-contiguous missing list 3,6. -/
def stateGappedOutput : GuiState :=
  { initState with
    start_frame := 1
    end_frame := 6
    output_dir := "/out"
    output_dir_exists := true
    output_dir_files :=
      ["frame_00001.png", "frame_00002.png", "frame_00004.png", "frame_00005.png"] }

/-- C10: every early return of the Output Inspector (empty or nonexistent
output directory, no file with a matching extension, or no filename
yielding a frame number) leaves the whole state exactly as it was. -/
theorem adjust_early_return_mutates_nothing (st : GuiState)
    (h : st.output_dir = "" ∨ st.output_dir_exists = false ∨
         filteredImageFiles st = [] ∨ renderedFrames st = []) :
    adjust_start_frame_based_on_existing_output st = st := by
  unfold adjust_start_frame_based_on_existing_output
  by_cases h1 : st.output_dir = "" ∨ st.output_dir_exists = false
  · simp [h1]
  · simp only [if_neg h1]
    by_cases h2 : filteredImageFiles st = []
    · simp [h2]
    · simp only [if_neg h2]
      by_cases h3 : renderedFrames st = []
      · simp [h3]
      · exfalso
        rcases h with h | h | h | h <;> simp_all

/-- Witness for C10 at a concrete state: an output directory containing
only notes.txt (no png) is left untouched. -/
theorem adjust_early_return_mutates_nothing_witness :
    adjust_start_frame_based_on_existing_output stateNoMatchingFiles =
      stateNoMatchingFiles :=
  adjust_early_return_mutates_nothing stateNoMatchingFiles (by decide)

/-- Counterexample to C2 as stated: with every frame of 1..2 rendered and
a stale missing_frames value some [3, 6], the all-rendered branch sets
start_frame to end_frame + 1 = 3 but does not set missingFrames to none;
the stale list survives. -/
theorem adjust_all_rendered_keeps_stale_missing :
    missingOf stateLeftoverMissing = [] ∧
    (adjust_start_frame_based_on_existing_output stateLeftoverMissing).start_frame = 3 ∧
    (adjust_start_frame_based_on_existing_output stateLeftoverMissing).missing_frames =
      some [3, 6] := by
  decide

theorem mem_rangeList {s e x : Int} : x ∈ rangeList s e ↔ s ≤ x ∧ x ≤ e := by
  unfold rangeList
  simp only [List.mem_map, List.mem_range]
  constructor
  · rintro ⟨i, hi, rfl⟩
    omega
  · rintro ⟨h1, h2⟩
    exact ⟨(x - s).toNat, by omega, by omega⟩

theorem rangeList_eq_nil {s e : Int} (h : e < s) : rangeList s e = [] := by
  unfold rangeList
  have : (e + 1 - s).toNat = 0 := by omega
  rw [this]
  rfl

theorem rangeList_append {s h e : Int} (h1 : s ≤ h) (h2 : h ≤ e + 1) :
    rangeList s e = rangeList s (h - 1) ++ rangeList h e := by
  unfold rangeList
  have hn : (e + 1 - s).toNat = (h - 1 + 1 - s).toNat + (e + 1 - h).toNat := by omega
  rw [hn, List.range_add, List.map_append, List.map_map]
  congr 1
  refine List.map_congr_left (fun i _ => ?_)
  simp only [Function.comp_apply]
  omega

/-- A filtered integer range is unchanged when the range is re-based at the
first element the filter keeps. -/
theorem filter_rangeList_head (p : Int → Bool) {s e h : Int} {t : List Int}
    (hf : (rangeList s e).filter p = h :: t) :
    (rangeList h e).filter p = h :: t := by
  have hmem : h ∈ (rangeList s e).filter p := by
    rw [hf]; exact List.mem_cons_self _ _
  have hr : h ∈ rangeList s e := List.mem_of_mem_filter hmem
  have hse : s ≤ h ∧ h ≤ e := mem_rangeList.mp hr
  rw [rangeList_append hse.1 (by omega), List.filter_append] at hf
  cases hA : (rangeList s (h - 1)).filter p with
  | nil =>
    rw [hA, List.nil_append] at hf
    exact hf
  | cons a as =>
    exfalso
    rw [hA, List.cons_append] at hf
    injection hf with ha _
    have hmA : a ∈ rangeList s (h - 1) :=
      List.mem_of_mem_filter (hA ▸ List.mem_cons_self a as)
    have := (mem_rangeList.mp hmA).2
    omega

/-- Amended C2: for a nonempty recovered frame set, the Output Inspector
sets startFrame to endFrame + 1 when nothing is missing (leaving
missingFrames unchanged instead of clearing it), to the first missing
frame otherwise, and assigns missingFrames to none exactly when the
missing frames are one contiguous run and to the missing list itself
otherwise. -/
theorem adjust_missing_frames_policy (st : GuiState)
    (hdir : ¬(st.output_dir = "" ∨ st.output_dir_exists = false))
    (hfiles : ¬filteredImageFiles st = [])
    (hrend : ¬renderedFrames st = []) :
    (missingOf st = [] →
      (adjust_start_frame_based_on_existing_output st).start_frame = st.end_frame + 1 ∧
      (adjust_start_frame_based_on_existing_output st).missing_frames =
        st.missing_frames) ∧
    (missingOf st ≠ [] →
      (adjust_start_frame_based_on_existing_output st).start_frame =
        (missingOf st).headD 0 ∧
      ((missingOf st).getLastD 0 - (missingOf st).headD 0 + 1 =
          ((missingOf st).length : Int) →
        (adjust_start_frame_based_on_existing_output st).missing_frames = none) ∧
      ((missingOf st).getLastD 0 - (missingOf st).headD 0 + 1 ≠
          ((missingOf st).length : Int) →
        (adjust_start_frame_based_on_existing_output st).missing_frames =
          some (missingOf st))) := by
  unfold adjust_start_frame_based_on_existing_output
  rw [if_neg hdir, if_neg hfiles, if_neg hrend]
  by_cases hm : missingOf st = []
  · simp [hm]
  · refine ⟨fun h => absurd h hm, fun _ => ?_⟩
    obtain ⟨a, t, hat⟩ := List.exists_cons_of_ne_nil hm
    cases t with
    | nil =>
      simp only [hat]
      rw [if_neg (by simp)]
      refine ⟨rfl, fun _ => rfl, fun hne => absurd ?_ hne⟩
      simp
    | cons b t' =>
      simp only [hat]
      by_cases hc : (a :: b :: t').length > 1 ∧
          (a :: b :: t').getLastD 0 - (a :: b :: t').headD 0 + 1 ≠
            (((a :: b :: t').length : Nat) : Int)
      · rw [if_pos hc]
        exact ⟨rfl, fun heq => absurd heq hc.2, fun _ => rfl⟩
      · rw [if_neg hc]
        refine ⟨rfl, fun _ => rfl, fun hne => ?_⟩
        exact absurd ⟨by simp only [List.length_cons]; omega, hne⟩ hc

/-- Witness for the amended C2 at a concrete gapped directory: rendered
frames 1,2,4,5 of range 1..6 give start frame 3 and the explicit missing
list 3,6. -/
theorem adjust_missing_frames_policy_witness :
    (adjust_start_frame_based_on_existing_output stateGappedOutput).start_frame = 3 ∧
    (adjust_start_frame_based_on_existing_output stateGappedOutput).missing_frames =
      some [3, 6] := by
  have h := adjust_missing_frames_policy stateGappedOutput
    (by decide) (by decide) (by decide)
  have hm : missingOf stateGappedOutput = [3, 6] := by decide
  have h2 := h.2 (by rw [hm]; decide)
  rw [hm] at h2
  exact ⟨h2.1, by rw [h2.2.2 (by decide)]⟩

theorem adjust_preserves_snapshot (st : GuiState) :
    (adjust_start_frame_based_on_existing_output st).output_dir = st.output_dir ∧
    (adjust_start_frame_based_on_existing_output st).output_dir_exists =
      st.output_dir_exists ∧
    (adjust_start_frame_based_on_existing_output st).output_dir_files =
      st.output_dir_files ∧
    (adjust_start_frame_based_on_existing_output st).image_format = st.image_format ∧
    (adjust_start_frame_based_on_existing_output st).end_frame = st.end_frame := by
  unfold adjust_start_frame_based_on_existing_output
  split_ifs with h1 h2 h3
  · exact ⟨rfl, rfl, rfl, rfl, rfl⟩
  · exact ⟨rfl, rfl, rfl, rfl, rfl⟩
  · exact ⟨rfl, rfl, rfl, rfl, rfl⟩
  · dsimp only
    split_ifs <;> simp

theorem filteredImageFiles_adjust (st : GuiState) :
    filteredImageFiles (adjust_start_frame_based_on_existing_output st) =
      filteredImageFiles st := by
  unfold filteredImageFiles
  rw [(adjust_preserves_snapshot st).2.2.1, (adjust_preserves_snapshot st).2.2.2.1]

theorem renderedFrames_adjust (st : GuiState) :
    renderedFrames (adjust_start_frame_based_on_existing_output st) =
      renderedFrames st := by
  unfold renderedFrames
  rw [filteredImageFiles_adjust, (adjust_preserves_snapshot st).2.2.2.1]

theorem missingOf_adjust_eq (st : GuiState) :
    missingOf (adjust_start_frame_based_on_existing_output st) =
      (rangeList (adjust_start_frame_based_on_existing_output st).start_frame
          st.end_frame).filter
        (fun fr => decide (fr ∉ renderedFrames st)) := by
  unfold missingOf
  rw [(adjust_preserves_snapshot st).2.2.2.2]
  congr 1
  funext fr
  rw [renderedFrames_adjust]

/-- C8: running the Output Inspector a second time, starting from the state
produced by the first run on an unchanged directory snapshot, computes the
same adjusted start frame and the same missingFrames outcome. -/
theorem output_inspector_idempotent (st : GuiState) :
    (adjust_start_frame_based_on_existing_output
        (adjust_start_frame_based_on_existing_output st)).start_frame =
      (adjust_start_frame_based_on_existing_output st).start_frame ∧
    (adjust_start_frame_based_on_existing_output
        (adjust_start_frame_based_on_existing_output st)).missing_frames =
      (adjust_start_frame_based_on_existing_output st).missing_frames := by
  by_cases h : st.output_dir = "" ∨ st.output_dir_exists = false ∨
      filteredImageFiles st = [] ∨ renderedFrames st = []
  · simp [adjust_early_return_mutates_nothing st h]
  · push_neg at h
    obtain ⟨hg1, hg2, h3, h4⟩ := h
    have hdir : ¬(st.output_dir = "" ∨ st.output_dir_exists = false) := by
      intro hc
      rcases hc with hc | hc
      · exact hg1 hc
      · exact hg2 hc
    have pol := adjust_missing_frames_policy st hdir h3 h4
    have hdir' : ¬((adjust_start_frame_based_on_existing_output st).output_dir = "" ∨
        (adjust_start_frame_based_on_existing_output st).output_dir_exists = false) := by
      rw [(adjust_preserves_snapshot st).1, (adjust_preserves_snapshot st).2.1]
      exact hdir
    have hfiles' :
        ¬filteredImageFiles (adjust_start_frame_based_on_existing_output st) = [] := by
      rw [filteredImageFiles_adjust]
      exact h3
    have hrend' :
        ¬renderedFrames (adjust_start_frame_based_on_existing_output st) = [] := by
      rw [renderedFrames_adjust]
      exact h4
    have pol' := adjust_missing_frames_policy
      (adjust_start_frame_based_on_existing_output st) hdir' hfiles' hrend'
    by_cases hm : missingOf st = []
    · obtain ⟨hs', hm'⟩ := pol.1 hm
      have hm2 : missingOf (adjust_start_frame_based_on_existing_output st) = [] := by
        rw [missingOf_adjust_eq, hs', rangeList_eq_nil (by omega)]
        rfl
      obtain ⟨hs'', hm''⟩ := pol'.1 hm2
      refine ⟨?_, hm''⟩
      rw [hs'', (adjust_preserves_snapshot st).2.2.2.2, hs']
    · obtain ⟨hs', hrest⟩ := pol.2 hm
      obtain ⟨a, t, hat⟩ := List.exists_cons_of_ne_nil hm
      have hm2 : missingOf (adjust_start_frame_based_on_existing_output st) = a :: t := by
        rw [missingOf_adjust_eq, hs', hat]
        simp only [List.headD_cons]
        exact filter_rangeList_head _ hat
      obtain ⟨hs'', hrest'⟩ := pol'.2 (by rw [hm2]; simp)
      refine ⟨?_, ?_⟩
      · rw [hs'', hm2, hs', hat]
      · by_cases hcont : (a :: t).getLastD 0 - (a :: t).headD 0 + 1 =
            (((a :: t).length : Nat) : Int)
        · rw [hrest'.1 (by rw [hm2]; exact hcont), hrest.1 (by rw [hat]; exact hcont)]
        · rw [hrest'.2 (by rw [hm2]; exact hcont), hrest.2 (by rw [hat]; exact hcont),
            hm2, hat]

/-- Update the status of the first queue widget whose path matches p
(the for-loops with break in BlenderRenderGui.py). -/
def setWidgetStatus (p : String) (ws : WidgetStatus) :
    List (String × WidgetStatus) → List (String × WidgetStatus)
  | [] => []
  | (q, s) :: rest =>
    if q = p then (q, ws) :: rest else (q, s) :: setWidgetStatus p ws rest

/-- Embedding of add_file_to_queue (BlenderRenderGui.py lines 258-309).
The widget scan over queue_list is modelled by membership of the path
among the widget paths.  An already-queued path is re-appended to the
internal file_queue only when it is neither the current blend file nor
already pending; a fresh path is appended to both the file_queue and the
widget list. -/
def add_file_to_queue (st : GuiState) (blend_file : String) : GuiState :=
  if blend_file ∈ st.widgets.map Prod.fst then
    if st.current_blend_file ≠ blend_file then
      if blend_file ∉ st.file_queue then
        { st with
          file_queue := st.file_queue ++ [blend_file]
          widgets := setWidgetStatus blend_file
            (if st.currently_rendering then WidgetStatus.queued else WidgetStatus.ready)
            st.widgets }
      else st
    else st
  else
    { st with
      file_queue := st.file_queue ++ [blend_file]
      widgets := st.widgets ++ [(blend_file,
        if st.currently_rendering then WidgetStatus.queued else WidgetStatus.ready)] }

/-- Well-formedness of the queue state: no duplicate pending paths, no
duplicate widgets, every pending path has a widget, and while rendering the
current blend file has a widget (it was added before becoming current). -/
def QueueInv (st : GuiState) : Prop :=
  st.file_queue.Nodup ∧
  (st.widgets.map Prod.fst).Nodup ∧
  (∀ p ∈ st.file_queue, p ∈ st.widgets.map Prod.fst) ∧
  (st.currently_rendering = true →
    st.current_blend_file = "" ∨ st.current_blend_file ∈ st.widgets.map Prod.fst)

instance (st : GuiState) : Decidable (QueueInv st) := by
  unfold QueueInv
  infer_instance

theorem setWidgetStatus_map_fst (p : String) (ws : WidgetStatus)
    (l : List (String × WidgetStatus)) :
    (setWidgetStatus p ws l).map Prod.fst = l.map Prod.fst := by
  induction l with
  | nil => rfl
  | cons a rest ih =>
    obtain ⟨q, s⟩ := a
    unfold setWidgetStatus
    by_cases h : q = p
    · rw [if_pos h]
      simp
    · rw [if_neg h]
      simp [ih]

theorem add_file_to_queue_keeps_control (st : GuiState) (bf : String) :
    (add_file_to_queue st bf).current_blend_file = st.current_blend_file ∧
    (add_file_to_queue st bf).currently_rendering = st.currently_rendering := by
  unfold add_file_to_queue
  split_ifs <;> exact ⟨rfl, rfl⟩

theorem queueInv_add (st : GuiState) (bf : String) (h : QueueInv st) :
    QueueInv (add_file_to_queue st bf) := by
  obtain ⟨h1, h2, h3, h4⟩ := h
  unfold add_file_to_queue
  by_cases hw : bf ∈ st.widgets.map Prod.fst
  · rw [if_pos hw]
    by_cases hc : st.current_blend_file ≠ bf
    · rw [if_pos hc]
      by_cases hq : bf ∉ st.file_queue
      · rw [if_pos hq]
        refine ⟨?_, ?_, ?_, ?_⟩
        · simp [List.Nodup, List.pairwise_append]
          exact ⟨h1, fun a ha hab => hq (hab ▸ ha)⟩
        · rw [setWidgetStatus_map_fst]
          exact h2
        · intro p hp
          rw [setWidgetStatus_map_fst]
          rcases List.mem_append.mp hp with hp | hp
          · exact h3 p hp
          · simp at hp
            exact hp ▸ hw
        · intro hr
          rw [setWidgetStatus_map_fst]
          exact h4 hr
      · rw [if_neg hq]
        exact ⟨h1, h2, h3, h4⟩
    · rw [if_neg hc]
      exact ⟨h1, h2, h3, h4⟩
  · rw [if_neg hw]
    have hq : bf ∉ st.file_queue := fun hbf => hw (h3 bf hbf)
    refine ⟨?_, ?_, ?_, ?_⟩
    · simp [List.Nodup, List.pairwise_append]
      exact ⟨h1, fun a ha hab => hq (hab ▸ ha)⟩
    · simp only [List.map_append]
      simp [List.Nodup, List.pairwise_append]
      exact ⟨h2, fun a x hax hab => hw (hab ▸ List.mem_map_of_mem Prod.fst hax)⟩
    · intro p hp
      simp only [List.map_append]
      rcases List.mem_append.mp hp with hp | hp
      · exact List.mem_append.mpr (Or.inl (h3 p hp))
      · simp at hp
        simp [hp]
    · intro hr
      rcases h4 hr with hre | hre
      · exact Or.inl hre
      · simp only [List.map_append]
        exact Or.inr (List.mem_append.mpr (Or.inl hre))

theorem add_keeps_active_out (st : GuiState) (bf : String) (h : QueueInv st)
    (hr : st.currently_rendering = true) (hne : st.current_blend_file ≠ "")
    (hout : st.current_blend_file ∉ st.file_queue) :
    st.current_blend_file ∉ (add_file_to_queue st bf).file_queue := by
  obtain ⟨h1, h2, h3, h4⟩ := h
  unfold add_file_to_queue
  by_cases hbf : bf = st.current_blend_file
  · have hw : bf ∈ st.widgets.map Prod.fst := by
      rcases h4 hr with hc | hc
      · exact absurd hc hne
      · exact hbf ▸ hc
    rw [if_pos hw, if_neg (by simp [hbf])]
    exact hout
  · split_ifs <;>
      first
        | exact hout
        | (intro hmem
           rcases List.mem_append.mp hmem with hmem | hmem
           · exact hout hmem
           · simp at hmem
             exact hbf hmem.symm)

theorem add_absorbs_pending (st : GuiState) (bf : String) (h : QueueInv st)
    (hbf : bf ∈ st.file_queue) : add_file_to_queue st bf = st := by
  obtain ⟨_, _, h3, _⟩ := h
  unfold add_file_to_queue
  rw [if_pos (h3 bf hbf)]
  by_cases hc : st.current_blend_file ≠ bf
  · rw [if_pos hc, if_neg (by simp [hbf])]
  · rw [if_neg hc]

/-- C5: along any sequence of file drops the pending queue stays free of
duplicates, a path equal to the Active job's path is never re-added while
that job is rendering, and dropping a path that is already pending changes
nothing. -/
theorem enqueue_no_duplicates (st : GuiState) (fs : List String) (h : QueueInv st) :
    QueueInv (fs.foldl add_file_to_queue st) ∧
    (fs.foldl add_file_to_queue st).file_queue.Nodup ∧
    (st.currently_rendering = true → st.current_blend_file ≠ "" →
      st.current_blend_file ∉ st.file_queue →
      st.current_blend_file ∉ (fs.foldl add_file_to_queue st).file_queue) ∧
    (∀ bf ∈ st.file_queue, add_file_to_queue st bf = st) := by
  induction fs generalizing st with
  | nil =>
    exact ⟨h, h.1, fun _ _ hout => hout, fun bf hbf => add_absorbs_pending st bf h hbf⟩
  | cons f fs ih =>
    have h' := queueInv_add st f h
    obtain ⟨ih1, ih2, ih3, _⟩ := ih (add_file_to_queue st f) h'
    refine ⟨ih1, ih2, ?_, fun bf hbf => add_absorbs_pending st bf h hbf⟩
    intro hr hne hout
    have hctl := add_file_to_queue_keeps_control st f
    rw [← hctl.1]
    exact ih3 (by rw [hctl.2]; exact hr) (by rw [hctl.1]; exact hne)
      (by rw [hctl.1]; exact add_keeps_active_out st f h hr hne hout)

/-- Concrete state for the C5 witness: one scene is actively rendering. -/
def stateActiveRender : GuiState :=
  { initState with
    currently_rendering := true
    current_blend_file := "/scenes/a.blend"
    widgets := [("/scenes/a.blend", WidgetStatus.rendering)] }

/-- Witness for C5: dropping the active file again plus a new file twice
leaves a duplicate-free queue that does not contain the active path. -/
theorem enqueue_no_duplicates_witness :
    (["/scenes/a.blend", "/scenes/b.blend",
        "/scenes/b.blend"].foldl add_file_to_queue stateActiveRender).file_queue.Nodup ∧
    "/scenes/a.blend" ∉
      (["/scenes/a.blend", "/scenes/b.blend",
        "/scenes/b.blend"].foldl add_file_to_queue stateActiveRender).file_queue := by
  have h := enqueue_no_duplicates stateActiveRender
    ["/scenes/a.blend", "/scenes/b.blend", "/scenes/b.blend"] (by decide)
  exact ⟨h.2.1, h.2.2.1 (by decide) (by decide) (by decide)⟩

/-- Embedding of update_time_statistics (BlenderRenderGui.py lines
738-783).  The formatted label text is abstracted to the numbers it
interpolates; wall-clock floats are modelled as exact rationals. -/
def update_time_statistics (frame_times : List ℚ) (total_frames : Int)
    (render_start_time now : ℚ) : StatsText :=
  if frame_times = [] then StatsText.calculating
  else
    let avg_frame_time := frame_times.sum / (frame_times.length : ℚ)
    let elapsed_time := now - render_start_time
    let frames_done : Int := frame_times.length
    let frames_remaining := total_frames - frames_done
    let estimated_remaining_seconds := (frames_remaining : ℚ) * avg_frame_time
    StatsText.statsReport avg_frame_time elapsed_time estimated_remaining_seconds
      (now + estimated_remaining_seconds)

/-- C6: with a nonempty frame-time history the reported average satisfies
the defining property of the mean and the estimated remaining time is
(totalFrames minus completed frames) times that average; with an empty
history the calculating placeholder is reported. -/
theorem time_statistics_mean_and_remaining (ft : List ℚ) (tf : Int) (rs now : ℚ) :
    (ft = [] → update_time_statistics ft tf rs now = StatsText.calculating) ∧
    (ft ≠ [] → ∃ avg rem,
      update_time_statistics ft tf rs now =
        StatsText.statsReport avg (now - rs) rem (now + rem) ∧
      avg * (ft.length : ℚ) = ft.sum ∧
      rem = ((tf : ℚ) - (ft.length : ℚ)) * avg) := by
  constructor
  · intro h
    unfold update_time_statistics
    rw [if_pos h]
  · intro h
    refine ⟨ft.sum / (ft.length : ℚ), ((tf : ℚ) - (ft.length : ℚ)) *
      (ft.sum / (ft.length : ℚ)), ?_, ?_, rfl⟩
    · unfold update_time_statistics
      rw [if_neg h]
      push_cast
      rfl
    · have hlen : (ft.length : ℚ) ≠ 0 := by
        have := List.length_pos.mpr h
        positivity
      field_simp

/-- Witness for C6 at the concrete history 2, 4 of a 5-frame job. -/
theorem time_statistics_mean_and_remaining_witness :
    ∃ avg rem,
      update_time_statistics [2, 4] 5 0 10 =
        StatsText.statsReport avg (10 - 0) rem (10 + rem) ∧
      avg * (([2, 4] : List ℚ).length : ℚ) = ([2, 4] : List ℚ).sum ∧
      rem = ((5 : Int) - (([2, 4] : List ℚ).length : ℚ)) * avg :=
  (time_statistics_mean_and_remaining [2, 4] 5 0 10).2 (by decide)

/-- Comma-separated rendering of the missing-frame list, as built by
",".join(str(f) for f in self.missing_frames) at line 629. -/
def intCommaJoin (l : List Int) : String :=
  String.intercalate "," (l.map toString)

/-- Argument list built by start_render for the render subprocess
(BlenderRenderGui.py lines 612-631): the fixed arguments, extended with
the missing_frames option exactly when the attribute is set, truthy, and
longer than one element. -/
def render_args (st : GuiState) (blend_file render_script : String) : List String :=
  let args := ["-b", blend_file, "-P", render_script, "--",
    "--output_dir", st.output_dir, "--prefix", "frame_", "--resume", "true"]
  match st.missing_frames with
  | some mf =>
    if mf ≠ [] ∧ mf.length > 1 then args ++ ["--missing_frames", intCommaJoin mf]
    else args
  | none => args

/-- C9: the all-rendered branch and every early return of the Output
Inspector leave missing_frames untouched, any list the Inspector does
store has more than one element, and start_render forwards a stored
multi-element list to the subprocess as the missing_frames option. -/
theorem stale_missing_frames_passed_to_render (st : GuiState)
    (bf rs : String) :
    ((missingOf st = [] ∨ st.output_dir = "" ∨ st.output_dir_exists = false ∨
        filteredImageFiles st = [] ∨ renderedFrames st = []) →
      (adjust_start_frame_based_on_existing_output st).missing_frames =
        st.missing_frames) ∧
    (∀ l, (adjust_start_frame_based_on_existing_output st).missing_frames = some l →
      st.missing_frames = some l ∨ l.length > 1) ∧
    (∀ l, st.missing_frames = some l → l.length > 1 →
      render_args st bf rs =
        ["-b", bf, "-P", rs, "--", "--output_dir", st.output_dir, "--prefix",
          "frame_", "--resume", "true", "--missing_frames", intCommaJoin l]) := by
  refine ⟨?_, ?_, ?_⟩
  · intro h
    by_cases he : st.output_dir = "" ∨ st.output_dir_exists = false ∨
        filteredImageFiles st = [] ∨ renderedFrames st = []
    · rw [adjust_early_return_mutates_nothing st he]
    · push_neg at he
      obtain ⟨hg1, hg2, h3, h4⟩ := he
      have hm : missingOf st = [] := by
        rcases h with h | h | h | h | h
        · exact h
        · exact absurd h hg1
        · exact absurd h (by simpa using hg2)
        · exact absurd h h3
        · exact absurd h h4
      exact (adjust_missing_frames_policy st (by tauto) h3 h4).1 hm |>.2
  · intro l hl
    by_cases he : st.output_dir = "" ∨ st.output_dir_exists = false ∨
        filteredImageFiles st = [] ∨ renderedFrames st = []
    · rw [adjust_early_return_mutates_nothing st he] at hl
      exact Or.inl hl
    · push_neg at he
      obtain ⟨hg1, hg2, h3, h4⟩ := he
      have pol := adjust_missing_frames_policy st (by tauto) h3 h4
      by_cases hm : missingOf st = []
      · exact Or.inl ((pol.1 hm).2 ▸ hl)
      · obtain ⟨hs', hrest⟩ := pol.2 hm
        by_cases hcont : (missingOf st).getLastD 0 - (missingOf st).headD 0 + 1 =
            ((missingOf st).length : Int)
        · rw [hrest.1 hcont] at hl
          exact absurd hl (by simp)
        · rw [hrest.2 hcont] at hl
          right
          obtain ⟨a, t, hat⟩ := List.exists_cons_of_ne_nil hm
          cases t with
          | nil =>
            exfalso
            rw [hat] at hcont
            exact hcont (by simp)
          | cons b t' =>
            have : l = missingOf st := by
              injection hl with h
              exact h.symm
            rw [this, hat]
            simp only [List.length_cons]
            omega
  · intro l hl hlen
    unfold render_args
    rw [hl]
    dsimp only
    rw [if_pos ⟨by intro h; rw [h] at hlen; exact absurd hlen (by decide), hlen⟩]
    rfl

/-- Witness for C9: the all-rendered state with stale missing list 3,6
keeps the list, and start_render then passes it on the command line. -/
theorem stale_missing_frames_passed_to_render_witness :
    (adjust_start_frame_based_on_existing_output stateLeftoverMissing).missing_frames =
      some [3, 6] ∧
    "--missing_frames" ∈
      render_args stateLeftoverMissing "/scenes/b.blend" "render_script.py" := by
  have h := stale_missing_frames_passed_to_render stateLeftoverMissing
    "/scenes/b.blend" "render_script.py"
  constructor
  · rw [h.1 (Or.inl (by decide))]
    rfl
  · rw [h.2.2 [3, 6] rfl (by decide)]
    simp

/-- Remainder of a character list after the first occurrence of pat
(models line.find(pat) followed by slicing past the marker); none when pat
does not occur. -/
def afterFirstSub (pat : List Char) : List Char → Option (List Char)
  | [] => if pat = [] then some [] else none
  | c :: cs =>
    if pat.isPrefixOf (c :: cs) then some ((c :: cs).drop pat.length)
    else afterFirstSub pat cs

/-- First token of Python str.split() with no separator: leading whitespace
is skipped, the token runs to the next whitespace; none models the
IndexError on an empty token list. -/
def firstWsTok (cs : List Char) : Option (List Char) :=
  match cs.dropWhile Char.isWhitespace with
  | [] => none
  | c :: cs' => some ((c :: cs').takeWhile (fun x => !x.isWhitespace))

/-- Model of Python int() on a token: optional sign followed by ASCII
digits (int's digit-grouping underscores and non-ASCII digits are not
modelled); none models the ValueError. -/
def parsePyInt (cs : List Char) : Option Int :=
  match cs with
  | [] => none
  | c :: rest =>
    let signed : Bool × List Char :=
      if c = '-' then (true, rest)
      else if c = '+' then (false, rest) else (false, c :: rest)
    if signed.2 ≠ [] ∧ signed.2.all Char.isDigit then
      some ((if signed.1 then -1 else 1) * (natOfDigits signed.2 : Int))
    else none

/-- Frame number of a Fra: progress line (handle_stdout lines 701-706):
the text after the first Fra: marker is split on whitespace and its first
token parsed with int(); none models the caught parse exception. -/
def parseFra (line : String) : Option Int :=
  match afterFirstSub "Fra:".data line.data with
  | none => none
  | some rest =>
    match firstWsTok rest with
    | none => none
    | some tok => parsePyInt tok

/-- Embedding of process_next_file (BlenderRenderGui.py lines 331-354):
pop the next pending file if any, mark its widget rendering and start its
probe; with an empty queue only the rendering flag is cleared. -/
def process_next_file (st : GuiState) : GuiState :=
  match st.file_queue with
  | [] => { st with currently_rendering := false }
  | next :: rest =>
    { st with
      currently_rendering := true
      file_queue := rest
      widgets := setWidgetStatus next WidgetStatus.rendering st.widgets
      probing := some next }

/-- Embedding of render_finished (lines 785-831): guarded on a live
process handle; fills the progress bar, accumulates the session
statistics, marks the current blend file's widget Completed with the
frame count and crash count, clears the process and advances the queue.
The parameter now models time.time() at the call. -/
def render_finished (now : ℚ) (st : GuiState) : GuiState :=
  if st.processRunning = false then st
  else
    let job_render_time := now - st.render_start_time
    let frames_rendered := st.end_frame - st.start_frame + 1
    let st1 :=
      { st with
        bar := st.bar.setValue st.bar.maximum
        total_scenes_rendered := st.total_scenes_rendered + 1
        total_frames_rendered := st.total_frames_rendered + frames_rendered
        total_render_time := st.total_render_time + job_render_time
        widgets := setWidgetStatus st.current_blend_file
          (WidgetStatus.completed frames_rendered st.crash_count) st.widgets
        processRunning := false
        currently_rendering := false }
    process_next_file st1

/-- Embedding of handle_process_error (lines 671-689): the only state
change is the crash-count increment in the Crashed case; the restart
announced by the log message is not implemented (the source comment at
line 689 reads: Logic to restart rendering could be added here). -/
def handle_process_error (st : GuiState) (err : ProcError) : GuiState :=
  if err = ProcError.crashed then { st with crash_count := st.crash_count + 1 }
  else st

/-- Qt signal sequence seen by the supervisor when the render child
crashes: errorOccurred(QProcess.Crashed) is delivered, then finished(),
so handle_process_error runs followed by render_finished. -/
def on_crashed_exit (now : ℚ) (st : GuiState) : GuiState :=
  render_finished now (handle_process_error st ProcError.crashed)

/-- One iteration of the handle_stdout read loop (lines 691-736) on a
single line at wall-clock instant now.  The loop guard requires a live
process; a Fra: line updates the frame timer, current_frame, the progress
bar (through Qt's out-of-range-ignoring setValue), and the statistics
label; a line containing the completion marker triggers render_finished. -/
def handle_stdout_line (now : ℚ) (st : GuiState) (line : String) : GuiState :=
  if st.processRunning = false then st
  else
    let st1 :=
      if (afterFirstSub "Fra:".data line.data).isSome then
        match parseFra line with
        | none => st
        | some frame_num =>
          let st' :=
            if st.current_frame ≠ frame_num then
              let stt :=
                if st.current_frame > 0 then
                  { st with frame_times := st.frame_times ++ [now - st.frame_start_time] }
                else st
              { stt with frame_start_time := now, current_frame := frame_num }
            else st
          { st' with
            bar := st'.bar.setValue (st'.current_frame - st'.start_frame)
            stats_label := update_time_statistics st'.frame_times st'.total_frames
              st'.render_start_time now }
      else st
    if (afterFirstSub "[DONE]".data line.data).isSome ∧ st1.processRunning = true then
      render_finished now st1
    else st1

/-- Fold of the stdout handler over a stream of timestamped lines. -/
def runStdout (st : GuiState) : List (ℚ × String) → GuiState
  | [] => st
  | (t, line) :: rest => runStdout (handle_stdout_line t st line) rest

/-- All intermediate supervisor states along a stdout stream. -/
def stdoutStates (st : GuiState) (ls : List (ℚ × String)) : List GuiState :=
  List.scanl (fun s tl => handle_stdout_line tl.1 s tl.2) st ls

/-- Concrete mid-render state for C1: a 1..20 job whose child has reached
frame 10 with no completion marker seen, with an empty remaining queue. -/
def stateMidRenderCrash : GuiState :=
  { initState with
    processRunning := true
    start_frame := 1
    end_frame := 20
    total_frames := 20
    current_frame := 10
    output_dir := "/scenes/job_output"
    current_blend_file := "/scenes/job.blend"
    widgets := [("/scenes/job.blend", WidgetStatus.rendering)]
    currently_rendering := true
    bar := { minimum := 0, maximum := 20, value := 9 }
    render_start_time := 0 }

/-- C1 (divergence of the code from the claim): when the child crashes at
frame 10 of a 1..20 job with no completion marker seen, the supervisor
increments crashCount by exactly 1 but relaunches nothing (process handle
cleared, no probe started, rendering flag cleared) and the finished
handler still marks the job's widget Completed. -/
theorem crashed_exit_no_relaunch_marks_completed :
    (on_crashed_exit 100 stateMidRenderCrash).crash_count =
      stateMidRenderCrash.crash_count + 1 ∧
    (on_crashed_exit 100 stateMidRenderCrash).processRunning = false ∧
    (on_crashed_exit 100 stateMidRenderCrash).probing = none ∧
    (on_crashed_exit 100 stateMidRenderCrash).currently_rendering = false ∧
    (on_crashed_exit 100 stateMidRenderCrash).widgets =
      [("/scenes/job.blend", WidgetStatus.completed 20 1)] := by
  decide

theorem parseFra_contains {line : String} {f : Int} (hp : parseFra line = some f) :
    (afterFirstSub "Fra:".data line.data).isSome = true := by
  unfold parseFra at hp
  cases hA : afterFirstSub "Fra:".data line.data with
  | none =>
    rw [hA] at hp
    exact absurd hp (by simp)
  | some r => simp

theorem setValue_minimum (b : ProgressBarState) (v : Int) :
    (b.setValue v).minimum = b.minimum := by
  unfold ProgressBarState.setValue
  split_ifs <;> rfl

theorem setValue_maximum (b : ProgressBarState) (v : Int) :
    (b.setValue v).maximum = b.maximum := by
  unfold ProgressBarState.setValue
  split_ifs <;> rfl

theorem setValue_in (b : ProgressBarState) (v : Int)
    (hmin : b.minimum ≤ v) (hmax : v ≤ b.maximum) :
    (b.setValue v).value = v := by
  unfold ProgressBarState.setValue
  have hni : ¬((v > b.maximum ∨ v < b.minimum) ∧ ¬(b.maximum = 0 ∧ b.minimum = 0)) := by
    intro hcon
    rcases hcon.1 with h | h <;> omega
  rw [if_neg hni]

theorem setValue_out (b : ProgressBarState) (v : Int)
    (h : v > b.maximum ∨ v < b.minimum)
    (hnz : ¬(b.maximum = 0 ∧ b.minimum = 0)) :
    b.setValue v = b := by
  unfold ProgressBarState.setValue
  rw [if_pos ⟨h, hnz⟩]

/-- Field characterisation of one stdout iteration on a parsable Fra: line
with no completion marker: the control fields are framed, current_frame
becomes the parsed frame, and the bar receives a setValue of the new
progress. -/
theorem handle_stdout_line_fields (now : ℚ) (x : GuiState) (line : String) (f : Int)
    (h1 : x.processRunning = true) (hp : parseFra line = some f)
    (hdone : afterFirstSub "[DONE]".data line.data = none) :
    (handle_stdout_line now x line).processRunning = x.processRunning ∧
    (handle_stdout_line now x line).start_frame = x.start_frame ∧
    (handle_stdout_line now x line).end_frame = x.end_frame ∧
    (handle_stdout_line now x line).current_frame = f ∧
    (handle_stdout_line now x line).bar = x.bar.setValue (f - x.start_frame) := by
  have hsome := parseFra_contains hp
  unfold handle_stdout_line
  simp only [h1, hsome, hp, hdone]
  by_cases hcf : x.current_frame ≠ f
  · simp only [if_pos hcf]
    by_cases hc0 : x.current_frame > 0 <;>
      simp [hc0, h1]
  · simp only [if_neg hcf]
    push_neg at hcf
    simp [hcf, h1]

/-- Induction invariant for the progress property: the control fields are
framed to the launch state, the bar's bounds are those configured by
start_render, the displayed value stays inside them, it equals the current
progress whenever that progress is representable, and it can exceed the
clamp of the current progress only while still at its initial zero. -/
def ProgressInv (s₀ x : GuiState) : Prop :=
  x.processRunning = true ∧
  x.start_frame = s₀.start_frame ∧
  x.end_frame = s₀.end_frame ∧
  x.bar.minimum = 0 ∧
  x.bar.maximum = s₀.end_frame - s₀.start_frame + 1 ∧
  0 < x.bar.maximum ∧
  0 ≤ x.bar.value ∧
  x.bar.value ≤ x.bar.maximum ∧
  (0 ≤ x.current_frame - x.start_frame →
    x.current_frame - x.start_frame ≤ x.bar.maximum →
    x.bar.value = x.current_frame - x.start_frame) ∧
  (x.bar.value ≤ max 0 (x.current_frame - x.start_frame) ∨ x.bar.value = 0)

theorem stdout_step (s₀ x : GuiState) (t : ℚ) (line : String) (f : Int)
    (hinv : ProgressInv s₀ x)
    (hdone : afterFirstSub "[DONE]".data line.data = none)
    (hp : parseFra line = some f)
    (hord : x.current_frame < f ∨ x.bar.value = 0) :
    ProgressInv s₀ (handle_stdout_line t x line) ∧
    x.bar.value ≤ (handle_stdout_line t x line).bar.value ∧
    (handle_stdout_line t x line).current_frame = f := by
  obtain ⟨h1, h2, h3, h4, h5, h6, h7, h8, h9, h10⟩ := hinv
  obtain ⟨e1, e2, e3, e4, e5⟩ := handle_stdout_line_fields t x line f h1 hp hdone
  have hmin := setValue_minimum x.bar (f - x.start_frame)
  have hmax := setValue_maximum x.bar (f - x.start_frame)
  by_cases hin : x.bar.minimum ≤ f - x.start_frame ∧ f - x.start_frame ≤ x.bar.maximum
  · have hv := setValue_in x.bar (f - x.start_frame) hin.1 hin.2
    refine ⟨⟨by rw [e1]; exact h1, by rw [e2]; exact h2, by rw [e3]; exact h3,
      by rw [e5, hmin]; exact h4, by rw [e5, hmax]; exact h5,
      by rw [e5, hmax]; exact h6, by rw [e5, hv]; omega,
      by rw [e5, hv, hmax]; omega, ?_, ?_⟩, ?_, e4⟩
    · intro hc1 hc2
      rw [e5, hv, e4, e2]
    · left
      rw [e5, hv, e4, e2]
      omega
    · rw [e5, hv]
      rcases hord with hord | hord
      · rcases h10 with h10 | h10 <;> omega
      · omega
  · have hout : f - x.start_frame > x.bar.maximum ∨ f - x.start_frame < x.bar.minimum := by
      omega
    have hnz : ¬(x.bar.maximum = 0 ∧ x.bar.minimum = 0) := by omega
    have hsv := setValue_out x.bar (f - x.start_frame) hout hnz
    rw [hsv] at e5
    refine ⟨⟨by rw [e1]; exact h1, by rw [e2]; exact h2, by rw [e3]; exact h3,
      by rw [e5]; exact h4, by rw [e5]; exact h5, by rw [e5]; exact h6,
      by rw [e5]; exact h7, by rw [e5]; exact h8, ?_, ?_⟩, by rw [e5], e4⟩
    · intro hc1 hc2
      rw [e4, e2] at hc1
      rw [e4, e2, e5] at hc2
      exfalso
      omega
    · rw [e5, e4, e2]
      rcases hord with hord | hord
      · rcases h10 with h10 | h10 <;> omega
      · omega

theorem stdoutStates_head (x : GuiState) (ls : List (ℚ × String)) :
    (stdoutStates x ls).head? = some x := by
  cases ls <;> rfl

theorem stdout_run_inv (s₀ : GuiState) (ls : List (ℚ × String)) :
    ∀ x, ProgressInv s₀ x →
    (∀ p ∈ ls, afterFirstSub "[DONE]".data p.2.data = none) →
    (∀ p ∈ ls, ∃ f, parseFra p.2 = some f) →
    List.Chain' (· < ·) (ls.filterMap (fun p => parseFra p.2)) →
    (∀ f, (ls.filterMap (fun p => parseFra p.2)).head? = some f →
      x.current_frame < f ∨ x.bar.value = 0) →
    (∀ s ∈ stdoutStates x ls, ProgressInv s₀ s) ∧
    List.Chain' (· ≤ ·) ((stdoutStates x ls).map (fun s => s.bar.value)) := by
  induction ls with
  | nil =>
    intro x hinv _ _ _ _
    refine ⟨fun s hs => ?_, by simp [stdoutStates]⟩
    simp [stdoutStates] at hs
    exact hs ▸ hinv
  | cons p ls ih =>
    intro x hinv hdone hparse hchain hcompat
    obtain ⟨t, line⟩ := p
    obtain ⟨f, hf⟩ := hparse (t, line) (List.mem_cons_self _ _)
    have hfm : ((t, line) :: ls).filterMap (fun p => parseFra p.2) =
        f :: ls.filterMap (fun p => parseFra p.2) := by
      simp [List.filterMap_cons, hf]
    rw [hfm] at hchain hcompat
    have hstep := stdout_step s₀ x t line f hinv
      (hdone (t, line) (List.mem_cons_self _ _)) hf
      (hcompat f rfl)
    obtain ⟨hinv', hmono, hcur⟩ := hstep
    have hrec := ih (handle_stdout_line t x line) hinv'
      (fun q hq => hdone q (List.mem_cons_of_mem _ hq))
      (fun q hq => hparse q (List.mem_cons_of_mem _ hq))
      (List.Chain'.tail hchain)
      (by
        intro g hg
        left
        rw [hcur]
        exact (List.chain'_cons'.mp hchain).1 g hg)
    have hsc : stdoutStates x ((t, line) :: ls) =
        x :: stdoutStates (handle_stdout_line t x line) ls := rfl
    rw [hsc]
    refine ⟨fun s hs => ?_, ?_⟩
    · rcases List.mem_cons.mp hs with hs | hs
      · exact hs ▸ hinv
      · exact hrec.1 s hs
    · rw [List.map_cons]
      rw [List.chain'_cons']
      refine ⟨?_, hrec.2⟩
      intro v hv
      rw [List.head?_map, stdoutStates_head] at hv
      simp at hv
      rw [← hv]
      exact hmono

/-- C3: from the state configured by start_render (value 0, maximum
endFrame − startFrame + 1, currentFrame = startFrame), along any stream of
Fra: lines with strictly increasing frame numbers and no completion
marker, the displayed progress stays within 0 and the maximum, equals
currentFrame − startFrame whenever that difference is representable on the
bar (out-of-range frame numbers are ignored by Qt), and is non-decreasing
from line to line. -/
theorem handle_stdout_progress_invariant (st : GuiState) (ls : List (ℚ × String))
    (hproc : st.processRunning = true)
    (hmin : st.bar.minimum = 0)
    (hval : st.bar.value = 0)
    (hmax : st.bar.maximum = st.end_frame - st.start_frame + 1)
    (hse : st.start_frame ≤ st.end_frame)
    (hcur : st.current_frame = st.start_frame)
    (hdone : ∀ p ∈ ls, afterFirstSub "[DONE]".data p.2.data = none)
    (hparse : ∀ p ∈ ls, ∃ f, parseFra p.2 = some f)
    (hchain : List.Chain' (· < ·) (ls.filterMap (fun p => parseFra p.2))) :
    (∀ s ∈ stdoutStates st ls,
      0 ≤ s.bar.value ∧
      s.bar.value ≤ st.end_frame - st.start_frame + 1 ∧
      (st.start_frame ≤ s.current_frame → s.current_frame ≤ st.end_frame + 1 →
        s.bar.value = s.current_frame - st.start_frame)) ∧
    List.Chain' (· ≤ ·) ((stdoutStates st ls).map (fun s => s.bar.value)) := by
  have hinv : ProgressInv st st := by
    refine ⟨hproc, rfl, rfl, hmin, hmax, by omega, by omega, by omega, ?_, Or.inr hval⟩
    intro _ _
    rw [hval, hcur]
    omega
  obtain ⟨hall, hch⟩ := stdout_run_inv st ls st hinv hdone hparse hchain
    (fun _ _ => Or.inr hval)
  refine ⟨fun s hs => ?_, hch⟩
  obtain ⟨_, g2, g3, _, g5, _, g7, g8, g9, _⟩ := hall s hs
  refine ⟨g7, by rw [← g5]; exact g8, fun hc1 hc2 => ?_⟩
  rw [g2] at g9
  apply g9 <;> omega

/-- Concrete launch state for the C3 witness: a 1..3 job about to render. -/
def stateLaunched : GuiState :=
  { initState with
    processRunning := true
    start_frame := 1
    end_frame := 3
    total_frames := 3
    current_frame := 1
    currently_rendering := true
    bar := { minimum := 0, maximum := 3, value := 0 } }

/-- Witness for C3 on a concrete three-line render log. -/
theorem handle_stdout_progress_invariant_witness :
    (∀ s ∈ stdoutStates stateLaunched
        [(0, "Fra: 1 Mem"), (5, "Fra: 2 Mem"), (9, "Fra: 3 Mem")],
      0 ≤ s.bar.value ∧
      s.bar.value ≤ stateLaunched.end_frame - stateLaunched.start_frame + 1 ∧
      (stateLaunched.start_frame ≤ s.current_frame →
        s.current_frame ≤ stateLaunched.end_frame + 1 →
        s.bar.value = s.current_frame - stateLaunched.start_frame)) ∧
    List.Chain' (· ≤ ·) ((stdoutStates stateLaunched
        [(0, "Fra: 1 Mem"), (5, "Fra: 2 Mem"), (9, "Fra: 3 Mem")]).map
      (fun s => s.bar.value)) := by
  refine handle_stdout_progress_invariant stateLaunched
    [(0, "Fra: 1 Mem"), (5, "Fra: 2 Mem"), (9, "Fra: 3 Mem")]
    rfl rfl rfl (by decide) (by decide) rfl
    (by decide) ?_ ?_
  · intro p hp
    simp only [List.mem_cons, List.not_mem_nil, or_false] at hp
    rcases hp with rfl | rfl | rfl
    · exact ⟨1, by decide⟩
    · exact ⟨2, by decide⟩
    · exact ⟨3, by decide⟩
  · have h : ([(0, "Fra: 1 Mem"), (5, "Fra: 2 Mem"),
        (9, "Fra: 3 Mem")] : List (ℚ × String)).filterMap (fun p => parseFra p.2) =
        [1, 2, 3] := by decide
    rw [h]
    simp [List.chain'_cons]

/-- Python str.zfill(width): pad with leading zeros after an optional
sign until the string is width characters long. -/
def zfill (width : Nat) (s : String) : String :=
  if s.length ≥ width then s
  else
    match s.data with
    | '-' :: rest => String.mk ('-' :: (List.replicate (width - s.length) '0' ++ rest))
    | '+' :: rest => String.mk ('+' :: (List.replicate (width - s.length) '0' ++ rest))
    | cs => String.mk (List.replicate (width - s.length) '0' ++ cs)

/-- Output filename written for a frame by render_script.py lines 112-113:
the prefix, the 5-digit-zero-padded frame number, and ".png". -/
def frameFileName (pfx : String) (frame : Int) : String :=
  pfx ++ zfill 5 (toString frame) ++ ".png"

/-- Console markers printed by the render script, abstracting the
formatted text of its print statements. -/
inductive RenderLine where
  | skipLine (frame : Int)
  | renderLine (frame : Int)
  | errorLine (frame : Int)
  | doneLine
  | allRenderedLine
  deriving DecidableEq

/-- The frame-by-frame loop of render_script.py (lines 111-131): a frame
whose output file exists is skipped; otherwise the render is attempted,
and a failure prints the error line and exits with code 1 without
reaching later frames; after the loop the done line is printed and the
script exits 0.  fails models which frames raise inside
bpy.ops.render.render; fs is the directory content, extended by each
written frame.  Returns (lines, exit code, attempted frames, rendered
frames). -/
def render_loop (pfx : String) (fails : Int → Bool) :
    List String → List Int → List RenderLine × Int × List Int × List Int
  | _, [] => ([RenderLine.doneLine], 0, [], [])
  | fs, frame :: rest =>
    let fname := frameFileName pfx frame
    if fname ∈ fs then
      let r := render_loop pfx fails fs rest
      (RenderLine.skipLine frame :: r.1, r.2.1, frame :: r.2.2.1, r.2.2.2)
    else if fails frame then
      ([RenderLine.renderLine frame, RenderLine.errorLine frame], 1, [frame], [])
    else
      let r := render_loop pfx fails (fs ++ [fname]) rest
      (RenderLine.renderLine frame :: r.1, r.2.1, frame :: r.2.2.1,
        frame :: r.2.2.2)

/-- Match of the resume-scan regex of render_script.py line 79 with
re.match: the filename starts with the prefix, followed by a nonempty
digit run immediately followed by the literal ".png"; the captured run is
the frame number. -/
def resumeFrameNum (pfx : String) (name : String) : Option Nat :=
  if pfx.data.isPrefixOf name.data then
    let core := name.data.drop pfx.data.length
    let digits := core.takeWhile Char.isDigit
    if digits ≠ [] ∧ (".png".data).isPrefixOf (core.drop digits.length) then
      some (natOfDigits digits)
    else none
  else none

/-- Range-resume branch of render_script.py (lines 77-92): scan the
".png" files for the highest prefix-matching frame and start one past it
(at least the scene start) when resume is on. -/
def rangeBranchFrames (scene_start scene_end : Int) (resume : Bool)
    (fs : List String) (pfx : String) : List Int :=
  let existing_files := fs.filter (fun f => listEndsWith ".png".data f.data)
  let start_frame :=
    if resume then
      let last_rendered :=
        (existing_files.filterMap (fun f => resumeFrameNum pfx f)).foldl
          (fun acc (n : Nat) => max acc (n : Int)) 0
      max scene_start (last_rendered + 1)
    else scene_start
  rangeList start_frame scene_end

/-- Frame selection of render_script.py (lines 62-96): a truthy explicit
missing-frames list is sorted ascending (Python sorted, modelled by the
stable insertion sort) and used as-is; a missing or empty list falls back
to the range branch. -/
def frames_to_render (scene_start scene_end : Int) (missing : Option (List Int))
    (resume : Bool) (fs : List String) (pfx : String) : List Int :=
  match missing with
  | some mf =>
    if mf ≠ [] then List.insertionSort (· ≤ ·) mf
    else rangeBranchFrames scene_start scene_end resume fs pfx
  | none => rangeBranchFrames scene_start scene_end resume fs pfx

/-- Whole-script behaviour of render_script.py after argument parsing:
frame selection, the early all-rendered exit with code 0 when nothing is
left (lines 94-96), otherwise the render loop. -/
def render_script_run (scene_start scene_end : Int) (missing : Option (List Int))
    (resume : Bool) (fs : List String) (pfx : String) (fails : Int → Bool) :
    List RenderLine × Int × List Int × List Int :=
  let frames := frames_to_render scene_start scene_end missing resume fs pfx
  if frames = [] then ([RenderLine.allRenderedLine], 0, [], [])
  else render_loop pfx fails fs frames

theorem getLast?_cons_ne {α : Type} (a : α) {l : List α} (h : l ≠ []) :
    (a :: l).getLast? = l.getLast? := by
  cases l with
  | nil => exact absurd rfl h
  | cons b t => rfl

theorem render_loop_spec (pfx : String) (fails : Int → Bool)
    (frames : List Int) :
    ∀ fs : List String,
      (render_loop pfx fails fs frames).1 ≠ [] ∧
      (∃ tl, frames = (render_loop pfx fails fs frames).2.2.1 ++ tl) ∧
      (∀ f ∈ (render_loop pfx fails fs frames).2.2.2,
        frameFileName pfx f ∉ fs) ∧
      ((∀ f ∈ frames, frameFileName pfx f ∈ fs ∨ fails f = false) →
        (render_loop pfx fails fs frames).2.1 = 0 ∧
        (render_loop pfx fails fs frames).1.getLast? = some RenderLine.doneLine) ∧
      ((render_loop pfx fails fs frames).2.1 = 1 →
        ∃ f pre, fails f = true ∧
          (render_loop pfx fails fs frames).1.getLast? =
            some (RenderLine.errorLine f) ∧
          (render_loop pfx fails fs frames).2.2.1 = pre ++ [f]) := by
  induction frames with
  | nil =>
    intro fs
    refine ⟨by simp [render_loop], ⟨[], rfl⟩, by simp [render_loop],
      fun _ => ⟨rfl, rfl⟩, fun h => absurd h (by simp [render_loop])⟩
  | cons fr rest ih =>
    intro fs
    by_cases hex : frameFileName pfx fr ∈ fs
    · have hrl : render_loop pfx fails fs (fr :: rest) =
          (RenderLine.skipLine fr :: (render_loop pfx fails fs rest).1,
            (render_loop pfx fails fs rest).2.1,
            fr :: (render_loop pfx fails fs rest).2.2.1,
            (render_loop pfx fails fs rest).2.2.2) := by
        simp only [render_loop]
        rw [if_pos hex]
      obtain ⟨ih1, ⟨tl, ih2⟩, ih3, ih4, ih5⟩ := ih fs
      rw [hrl]
      refine ⟨by simp, ⟨tl, by rw [List.cons_append, ← ih2]⟩, ih3, ?_, ?_⟩
      · intro h
        obtain ⟨he, hd⟩ := ih4 (fun f hf => h f (List.mem_cons_of_mem _ hf))
        exact ⟨he, by rw [getLast?_cons_ne _ ih1]; exact hd⟩
      · intro h
        obtain ⟨f, pre, hfa, hlast, hatt⟩ := ih5 h
        exact ⟨f, fr :: pre, hfa, by rw [getLast?_cons_ne _ ih1]; exact hlast,
          by rw [hatt, List.cons_append]⟩
    · by_cases hfl : fails fr = true
      · have hrl : render_loop pfx fails fs (fr :: rest) =
            ([RenderLine.renderLine fr, RenderLine.errorLine fr], 1, [fr], []) := by
          simp only [render_loop]
          rw [if_neg hex, if_pos hfl]
        rw [hrl]
        refine ⟨by simp, ⟨rest, rfl⟩, by simp, ?_, ?_⟩
        · intro h
          rcases h fr (List.mem_cons_self _ _) with hc | hc
          · exact absurd hc hex
          · rw [hfl] at hc
            exact absurd hc (by simp)
        · intro _
          exact ⟨fr, [], hfl, rfl, rfl⟩
      · have hfl' : fails fr = false := by
          cases h : fails fr
          · rfl
          · exact absurd h hfl
        have hrl : render_loop pfx fails fs (fr :: rest) =
            (RenderLine.renderLine fr ::
                (render_loop pfx fails (fs ++ [frameFileName pfx fr]) rest).1,
              (render_loop pfx fails (fs ++ [frameFileName pfx fr]) rest).2.1,
              fr :: (render_loop pfx fails (fs ++ [frameFileName pfx fr]) rest).2.2.1,
              fr :: (render_loop pfx fails (fs ++ [frameFileName pfx fr]) rest).2.2.2) := by
          simp only [render_loop]
          rw [if_neg hex, if_neg hfl]
        obtain ⟨ih1, ⟨tl, ih2⟩, ih3, ih4, ih5⟩ := ih (fs ++ [frameFileName pfx fr])
        rw [hrl]
        refine ⟨by simp, ⟨tl, by rw [List.cons_append, ← ih2]⟩, ?_, ?_, ?_⟩
        · intro f hf
          rcases List.mem_cons.mp hf with hf | hf
          · exact hf ▸ hex
          · intro hmem
            exact ih3 f hf (List.mem_append.mpr (Or.inl hmem))
        · intro h
          have hrest : ∀ f ∈ rest,
              frameFileName pfx f ∈ fs ++ [frameFileName pfx fr] ∨ fails f = false := by
            intro f hf
            rcases h f (List.mem_cons_of_mem _ hf) with hc | hc
            · exact Or.inl (List.mem_append.mpr (Or.inl hc))
            · exact Or.inr hc
          obtain ⟨he, hd⟩ := ih4 hrest
          exact ⟨he, by rw [getLast?_cons_ne _ ih1]; exact hd⟩
        · intro h
          obtain ⟨f, pre, hfa, hlast, hatt⟩ := ih5 h
          exact ⟨f, fr :: pre, hfa, by rw [getLast?_cons_ne _ ih1]; exact hlast,
            by rw [hatt, List.cons_append]⟩

theorem pairwise_le_rangeList (s e : Int) :
    List.Pairwise (· ≤ ·) (rangeList s e) := by
  unfold rangeList
  refine List.Pairwise.map _ (fun a b hab => ?_) (List.pairwise_lt_range _)
  omega

theorem pairwise_le_frames_to_render (scene_start scene_end : Int)
    (missing : Option (List Int)) (resume : Bool) (fs : List String)
    (pfx : String) :
    List.Pairwise (· ≤ ·)
      (frames_to_render scene_start scene_end missing resume fs pfx) := by
  unfold frames_to_render rangeBranchFrames
  cases missing with
  | none => exact pairwise_le_rangeList _ _
  | some mf =>
    dsimp only
    by_cases h : mf ≠ []
    · rw [if_pos h]
      exact List.sorted_insertionSort (· ≤ ·) mf
    · rw [if_neg h]
      exact pairwise_le_rangeList _ _

/-- C7: the driver renders the frames of its range (or of the explicit
missing-frames list) in ascending order, a frame whose zero-padded output
file already exists is never rendered, a nonempty frame list all of whose
frames are either on disk or render successfully ends with the done line
and exit code 0, and a per-frame failure ends the output with the error
line, exits with code 1, and attempts no frame past the failing one. -/
theorem render_script_loop_spec (scene_start scene_end : Int)
    (missing : Option (List Int)) (resume : Bool) (fs : List String)
    (pfx : String) (fails : Int → Bool) :
    List.Pairwise (· ≤ ·)
      (frames_to_render scene_start scene_end missing resume fs pfx) ∧
    (∃ tl, frames_to_render scene_start scene_end missing resume fs pfx =
      (render_script_run scene_start scene_end missing resume fs pfx fails).2.2.1
        ++ tl) ∧
    (∀ f ∈ (render_script_run scene_start scene_end missing resume fs pfx
        fails).2.2.2, frameFileName pfx f ∉ fs) ∧
    (frames_to_render scene_start scene_end missing resume fs pfx ≠ [] →
      (∀ f ∈ frames_to_render scene_start scene_end missing resume fs pfx,
        frameFileName pfx f ∈ fs ∨ fails f = false) →
      (render_script_run scene_start scene_end missing resume fs pfx fails).2.1 = 0 ∧
      (render_script_run scene_start scene_end missing resume fs pfx
        fails).1.getLast? = some RenderLine.doneLine) ∧
    ((render_script_run scene_start scene_end missing resume fs pfx fails).2.1 = 1 →
      ∃ f pre, fails f = true ∧
        (render_script_run scene_start scene_end missing resume fs pfx
          fails).1.getLast? = some (RenderLine.errorLine f) ∧
        (render_script_run scene_start scene_end missing resume fs pfx
          fails).2.2.1 = pre ++ [f]) := by
  refine ⟨pairwise_le_frames_to_render _ _ _ _ _ _, ?_⟩
  unfold render_script_run
  by_cases hnil : frames_to_render scene_start scene_end missing resume fs pfx = []
  · rw [if_pos hnil]
    refine ⟨⟨[], by rw [hnil]; rfl⟩, by simp, fun h _ => absurd hnil h,
      fun h => absurd h (by simp)⟩
  · rw [if_neg hnil]
    obtain ⟨_, h2, h3, h4, h5⟩ := render_loop_spec pfx fails
      (frames_to_render scene_start scene_end missing resume fs pfx) fs
    exact ⟨h2, h3, fun _ hall => h4 hall, h5⟩

/-- Witness for C7: explicit list 1,2,3 with frame 2 already on disk and
no failures renders 1 and 3, skips 2, prints the done line, exits 0. -/
theorem render_script_loop_spec_witness :
    (render_script_run 1 3 (some [1, 2, 3]) true ["frame_00002.png"] "frame_"
      (fun _ => false)).2.1 = 0 ∧
    (render_script_run 1 3 (some [1, 2, 3]) true ["frame_00002.png"] "frame_"
      (fun _ => false)).1.getLast? = some RenderLine.doneLine ∧
    ∀ f ∈ (render_script_run 1 3 (some [1, 2, 3]) true ["frame_00002.png"]
      "frame_" (fun _ => false)).2.2.2, frameFileName "frame_" f ∉
        ["frame_00002.png"] := by
  obtain ⟨-, -, h3, h4, -⟩ := render_script_loop_spec 1 3 (some [1, 2, 3]) true
    ["frame_00002.png"] "frame_" (fun _ => false)
  have h4' := h4 (by decide) (fun f _ => Or.inr rfl)
  exact ⟨h4'.1, h4'.2, h3⟩

/-- posixpath.isabs: the path starts with a slash (os.path on the POSIX
hosts the tool targets). -/
def isabs (p : String) : Bool :=
  match p.data with
  | [] => false
  | c :: _ => decide (c = '/')

/-- posixpath.join of two components. -/
def pathJoin (a b : String) : String :=
  if isabs b then b
  else if a = "" ∨ listEndsWith ['/'] a.data then a ++ b
  else a ++ "/" ++ b

/-- posixpath.dirname at the character level: the slice up to and
including the last slash (index-free: the trailing slash-free run is
dropped; an all-slash-free path gives the empty head), with trailing
slashes then stripped unless the head is all slashes. -/
def dirnameL (cs : List Char) : List Char :=
  let head := (cs.reverse.dropWhile (fun c => decide (c ≠ '/'))).reverse
  if head ≠ [] ∧ ¬head.all (fun c => decide (c = '/')) then
    (head.reverse.dropWhile (fun c => decide (c = '/'))).reverse
  else head

/-- posixpath.dirname. -/
def dirname (p : String) : String := String.mk (dirnameL p.data)

/-- Split a character list on slashes (model of str.split("/")). -/
def splitSlash : List Char → List (List Char)
  | [] => [[]]
  | c :: cs =>
    if c = '/' then [] :: splitSlash cs
    else
      match splitSlash cs with
      | [] => [[c]]
      | h :: t => (c :: h) :: t

/-- PurePosixPath(p).name: the last path component after pathlib's
parsing, which drops empty and single-dot components. -/
def pathName (p : String) : String :=
  match ((splitSlash p.data).filter
      (fun c => decide (c ≠ [] ∧ c ≠ ['.']))).getLast? with
  | none => ""
  | some n => String.mk n

/-- PurePosixPath(p).stem: the name without its suffix; pathlib takes the
suffix at the last dot index i only when 0 < i < len(name) - 1 (index-free
via the dot-free run after the last dot). -/
def pathStem (p : String) : String :=
  let name := (pathName p).data
  if ('.' : Char) ∈ name then
    let after := name.reverse.takeWhile (fun c => decide (c ≠ '.'))
    let i := name.length - 1 - after.length
    if 0 < i ∧ i < name.length - 1 then String.mk (name.take i)
    else String.mk name
  else String.mk name

/-- Leading-slash count used by posixpath.normpath: 2 for exactly two
leading slashes, otherwise 1 when the path is absolute, else 0. -/
def initialSlashes (cs : List Char) : Nat :=
  if cs.take 1 = ['/'] then
    if cs.take 3 = ['/', '/', '/'] then 1
    else if cs.take 2 = ['/', '/'] then 2
    else 1
  else 0

/-- One step of posixpath.normpath's component scan. -/
def normStep (k : Nat) (acc : List (List Char)) (comp : List Char) :
    List (List Char) :=
  if comp = [] ∨ comp = ['.'] then acc
  else if comp ≠ ['.', '.'] ∨ (k = 0 ∧ acc = []) ∨
      (acc ≠ [] ∧ acc.getLast? = some ['.', '.']) then
    acc ++ [comp]
  else if acc ≠ [] then acc.dropLast
  else acc

/-- Join components with slashes (model of "/".join). -/
def joinSlash : List (List Char) → List Char
  | [] => []
  | [c] => c
  | c :: cs => c ++ '/' :: joinSlash cs

/-- posixpath.normpath at the character level. -/
def normpathL (cs : List Char) : List Char :=
  if cs = [] then ['.']
  else
    let k := initialSlashes cs
    let newComps := (splitSlash cs).foldl (normStep k) []
    let res := List.replicate k '/' ++ joinSlash newComps
    if res = [] then ['.'] else res

/-- posixpath.normpath. -/
def normpath (p : String) : String := String.mk (normpathL p.data)

/-- os.path.abspath with the process working directory made explicit:
relative paths are joined onto cwd, then the result is normalised. -/
def abspath (cwd p : String) : String := normpath (pathJoin cwd p)

/-- The malformed-probe test of parse_probe_output (lines 413-414 and
422-426): an empty string, the bare scene-relative marker, or a tail that
is the OUTPUT_DIR tag itself. -/
def probeMalformed (p : String) : Prop :=
  p = "" ∨ p = "//" ∨ listEndsWith "OUTPUT_DIR".data p.data = true

instance (p : String) : Decidable (probeMalformed p) := by
  unfold probeMalformed
  infer_instance

/-- Output-directory resolution of parse_probe_output (BlenderRenderGui.py
lines 396-440): a malformed probe string falls back to the verbatim join
of the scene directory with the scene stem plus _output; otherwise a
scene-relative (double-slash) or relative probe string is joined onto the
scene directory and normalised, and the result is passed through
os.path.abspath against the process working directory cwd. -/
def resolveOutputDir (cwd blend_file probed : String) : String :=
  let scene_dir := dirname blend_file
  let fallback_output := pathJoin scene_dir (pathStem blend_file ++ "_output")
  if probeMalformed probed then fallback_output
  else
    let d1 :=
      if ['/', '/'].isPrefixOf probed.data then
        normpath (pathJoin scene_dir (String.mk (probed.data.drop 2)))
      else if ¬isabs probed then normpath (pathJoin scene_dir probed)
      else probed
    abspath cwd d1

/-- Counterexample to C4 as stated: with an absolute but unnormalised
scene path and an empty probed output, the fallback branch returns the
verbatim join, which is not a normalised path. -/
theorem probe_fallback_not_normalized :
    resolveOutputDir "/w" "/x/./s.blend" "" = "/x/./s_output" ∧
    normpath "/x/./s_output" ≠ "/x/./s_output" := by
  decide

theorem splitSlash_ne_nil : ∀ cs : List Char, splitSlash cs ≠ []
  | [] => by simp [splitSlash]
  | c :: cs => by
    unfold splitSlash
    split_ifs
    · simp
    · cases h : splitSlash cs <;> simp

theorem splitSlash_cons_slash (cs : List Char) :
    splitSlash ('/' :: cs) = [] :: splitSlash cs := by
  conv_lhs => unfold splitSlash
  rw [if_pos rfl]

theorem splitSlash_cons_ne {c : Char} (cs : List Char) (h : ¬c = '/') :
    ∃ h₀ t₀, splitSlash cs = h₀ :: t₀ ∧ splitSlash (c :: cs) = (c :: h₀) :: t₀ := by
  cases hs : splitSlash cs with
  | nil => exact absurd hs (splitSlash_ne_nil cs)
  | cons h₀ t₀ =>
    refine ⟨h₀, t₀, rfl, ?_⟩
    unfold splitSlash
    rw [if_neg h, hs]

theorem splitSlash_no_slash : ∀ cs : List Char, ∀ c ∈ splitSlash cs, '/' ∉ c := by
  intro cs
  induction cs with
  | nil =>
    intro c hc
    simp [splitSlash] at hc
    simp [hc]
  | cons c0 cs ih =>
    intro c hc
    by_cases h0 : c0 = '/'
    · subst h0
      rw [splitSlash_cons_slash] at hc
      rcases List.mem_cons.mp hc with hc | hc
      · simp [hc]
      · exact ih c hc
    · obtain ⟨h₀, t₀, hs, heq⟩ := splitSlash_cons_ne cs h0
      rw [heq] at hc
      rcases List.mem_cons.mp hc with hc | hc
      · subst hc
        intro hmem
        rcases List.mem_cons.mp hmem with hmem | hmem
        · exact h0 hmem.symm
        · exact ih h₀ (hs ▸ List.mem_cons_self _ _) hmem
      · exact ih c (hs ▸ List.mem_cons_of_mem _ hc)

theorem splitSlash_append_part (part : List Char) {rest : List Char}
    {h₀ : List Char} {t₀ : List (List Char)} (hp : '/' ∉ part)
    (hs : splitSlash rest = h₀ :: t₀) :
    splitSlash (part ++ rest) = (part ++ h₀) :: t₀ := by
  induction part with
  | nil => simpa using hs
  | cons c part ih =>
    have hc : ¬c = '/' := fun hh => hp (List.mem_cons.mpr (Or.inl hh.symm))
    have ihh := ih (fun hm => hp (List.mem_cons_of_mem _ hm))
    obtain ⟨h₁, t₁, hs₁, heq₁⟩ := splitSlash_cons_ne (part ++ rest) hc
    rw [ihh] at hs₁
    injection hs₁ with e1 e2
    rw [List.cons_append, heq₁, ← e1, ← e2]
    rfl

theorem joinSlash_cons_cons (c c₂ : List Char) (cs : List (List Char)) :
    joinSlash (c :: c₂ :: cs) = c ++ '/' :: joinSlash (c₂ :: cs) := rfl

theorem splitSlash_joinSlash : ∀ acc : List (List Char), acc ≠ [] →
    (∀ c ∈ acc, '/' ∉ c) → splitSlash (joinSlash acc) = acc := by
  intro acc
  induction acc with
  | nil => exact fun h _ => absurd rfl h
  | cons c acc ih =>
    intro _ hgood
    cases acc with
    | nil =>
      have h0 : splitSlash ([] : List Char) = [] :: [] := rfl
      have := splitSlash_append_part c (hgood c (List.mem_cons_self _ _)) h0
      simpa [joinSlash] using this
    | cons c₂ acc₂ =>
      have ihh := ih (by simp) (fun x hx => hgood x (List.mem_cons_of_mem _ hx))
      rw [joinSlash_cons_cons]
      have h2 : splitSlash ('/' :: joinSlash (c₂ :: acc₂)) = [] :: (c₂ :: acc₂) := by
        rw [splitSlash_cons_slash, ihh]
      rw [splitSlash_append_part c (hgood c (List.mem_cons_self _ _)) h2]
      simp

theorem splitSlash_replicate_append (k : Nat) (X : List Char) :
    splitSlash (List.replicate k '/' ++ X) =
      List.replicate k ([] : List Char) ++ splitSlash X := by
  induction k with
  | zero => simp
  | succ k ih =>
    simp only [List.replicate_succ, List.cons_append, splitSlash_cons_slash, ih]

/-- A component a normpath output may contain: nonempty, not the single
dot, slash-free. -/
def GoodComp (c : List Char) : Prop := c ≠ [] ∧ c ≠ ['.'] ∧ '/' ∉ c

/-- Shape invariant of the normpath component accumulator: good
components, with any double-dot entries forming a leading block that is
empty for absolute paths. -/
def GoodAcc (k : Nat) (acc : List (List Char)) : Prop :=
  (∀ c ∈ acc, GoodComp c) ∧
  ∃ m rest, acc = List.replicate m ['.', '.'] ++ rest ∧
    ['.', '.'] ∉ rest ∧ (k ≠ 0 → m = 0)

theorem normStep_good {k : Nat} {acc : List (List Char)} {comp : List Char}
    (hacc : GoodAcc k acc) (hc : '/' ∉ comp) : GoodAcc k (normStep k acc comp) := by
  obtain ⟨hg, m, rest, hacc_eq, hddrest, hkm⟩ := hacc
  unfold normStep
  split_ifs with h1 h2 h3
  · exact ⟨hg, m, rest, hacc_eq, hddrest, hkm⟩
  · push_neg at h1
    refine ⟨?_, ?_⟩
    · intro c hcm
      rcases List.mem_append.mp hcm with h | h
      · exact hg c h
      · simp at h
        subst h
        exact ⟨h1.1, h1.2, hc⟩
    · by_cases hdd : comp = ['.', '.']
      · subst hdd
        rcases h2 with h2 | h2 | h2
        · exact absurd rfl h2
        · obtain ⟨hk0, haccnil⟩ := h2
          rw [haccnil]
          refine ⟨1, [], by simp, by simp, fun hk => absurd hk0 hk⟩
        · obtain ⟨haccne, hlast⟩ := h2
          have hrestnil : rest = [] := by
            by_contra hr
            have : acc.getLast? = rest.getLast? := by
              rw [hacc_eq]
              exact List.getLast?_append_of_ne_nil _ hr
            rw [hlast] at this
            have hx : ['.', '.'] ∈ rest.getLast? := by
              rw [Option.mem_def]
              exact this.symm
            obtain ⟨hne2, hgl⟩ := List.mem_getLast?_eq_getLast hx
            exact hddrest (hgl ▸ List.getLast_mem hne2)
          rw [hacc_eq, hrestnil]
          refine ⟨m + 1, [], by simp [List.replicate_succ' m], by simp, fun hk => ?_⟩
          exfalso
          rw [hacc_eq, hrestnil, hkm hk] at haccne
          exact haccne (by simp)
      · rw [hacc_eq]
        refine ⟨m, rest ++ [comp], by rw [List.append_assoc], ?_, hkm⟩
        intro hmem
        rcases List.mem_append.mp hmem with h | h
        · exact hddrest h
        · simp at h
          exact hdd h.symm
  · push_neg at h2
    obtain ⟨hddc, hnotfree, hnotlast⟩ := h2
    have hcompdd : comp = ['.', '.'] := by
      by_contra hc2
      exact hc2 (by simpa using hddc)
    have hrestne : rest ≠ [] := by
      intro hr
      rw [hr, List.append_nil] at hacc_eq
      have hm : m ≠ 0 := by
        intro hm0
        rw [hm0] at hacc_eq
        exact h3 (by simpa using hacc_eq)
      have : acc.getLast? = some ['.', '.'] := by
        rw [hacc_eq]
        cases m with
        | zero => exact absurd rfl hm
        | succ m' =>
          rw [List.replicate_succ' m']
          rw [List.getLast?_append_of_ne_nil _ (by simp)]
          rfl
      exact absurd this (hnotlast h3)
    refine ⟨fun c hcm => hg c (List.dropLast_subset acc hcm), m, rest.dropLast, ?_, ?_, hkm⟩
    · rw [hacc_eq, List.dropLast_append_of_ne_nil _ hrestne]
    · intro hmem
      exact hddrest (List.dropLast_subset rest hmem)
  · exact ⟨hg, m, rest, hacc_eq, hddrest, hkm⟩

theorem foldl_normStep_good {k : Nat} (comps : List (List Char)) :
    ∀ acc, GoodAcc k acc → (∀ c ∈ comps, '/' ∉ c) →
    GoodAcc k (comps.foldl (normStep k) acc) := by
  induction comps with
  | nil => exact fun acc h _ => h
  | cons c comps ih =>
    intro acc hacc hcs
    rw [List.foldl_cons]
    exact ih _ (normStep_good hacc (hcs c (List.mem_cons_self _ _)))
      (fun x hx => hcs x (List.mem_cons_of_mem _ hx))

theorem foldl_normStep_normal {k : Nat} (rest : List (List Char)) :
    ∀ acc, (∀ c ∈ rest, GoodComp c ∧ c ≠ ['.', '.']) →
    rest.foldl (normStep k) acc = acc ++ rest := by
  induction rest with
  | nil => simp
  | cons c rest ih =>
    intro acc hrest
    rw [List.foldl_cons]
    obtain ⟨⟨hne, hdot, _⟩, hdd⟩ := hrest c (List.mem_cons_self _ _)
    have hstep : normStep k acc c = acc ++ [c] := by
      unfold normStep
      rw [if_neg (by simp [hne, hdot]), if_pos (Or.inl hdd)]
    rw [hstep, ih _ (fun x hx => hrest x (List.mem_cons_of_mem _ hx))]
    simp

theorem foldl_normStep_dd_zero (m : Nat) :
    ∀ j, (List.replicate m ['.', '.']).foldl (normStep 0)
      (List.replicate j ['.', '.']) = List.replicate (j + m) ['.', '.'] := by
  induction m with
  | zero => simp
  | succ m ih =>
    intro j
    rw [List.replicate_succ, List.foldl_cons]
    have hstep : normStep 0 (List.replicate j ['.', '.']) ['.', '.'] =
        List.replicate (j + 1) ['.', '.'] := by
      unfold normStep
      rw [if_neg (by simp), if_pos ?_, List.replicate_succ' j]
      cases j with
      | zero => exact Or.inr (Or.inl ⟨rfl, rfl⟩)
      | succ j' =>
        refine Or.inr (Or.inr ⟨by simp, ?_⟩)
        rw [List.replicate_succ' j']
        rw [List.getLast?_append_of_ne_nil _ (by simp)]
        rfl
    rw [hstep, ih (j + 1)]
    congr 1
    omega

theorem foldl_normStep_id {k : Nat} {acc : List (List Char)}
    (hacc : GoodAcc k acc) : acc.foldl (normStep k) [] = acc := by
  obtain ⟨hg, m, rest, heq, hddrest, hkm⟩ := hacc
  subst heq
  rw [List.foldl_append]
  have hdd : (List.replicate m ['.', '.']).foldl (normStep k) [] =
      List.replicate m ['.', '.'] := by
    by_cases hk : k = 0
    · subst hk
      simpa using foldl_normStep_dd_zero m 0
    · rw [hkm hk]
      simp
  rw [hdd]
  rw [foldl_normStep_normal rest _
    (fun c hc => ⟨hg c (List.mem_append_right _ hc), fun h => hddrest (h ▸ hc)⟩)]

theorem foldl_normStep_empties (k : Nat) (j : Nat) (acc : List (List Char)) :
    (List.replicate j ([] : List Char)).foldl (normStep k) acc = acc := by
  induction j generalizing acc with
  | zero => rfl
  | succ j ih =>
    rw [List.replicate_succ, List.foldl_cons]
    have : normStep k acc [] = acc := by
      unfold normStep
      rw [if_pos (Or.inl rfl)]
    rw [this, ih]

theorem initialSlashes_le_two (cs : List Char) : initialSlashes cs ≤ 2 := by
  unfold initialSlashes
  split_ifs <;> omega

theorem joinSlash_head (acc : List (List Char)) (hg : ∀ c ∈ acc, GoodComp c)
    (hne : acc ≠ []) :
    ∃ c0 t, joinSlash acc = c0 :: t ∧ ¬c0 = '/' := by
  cases acc with
  | nil => exact absurd rfl hne
  | cons c rest =>
    obtain ⟨hcne, _, hslash⟩ := hg c (List.mem_cons_self _ _)
    cases hc : c with
    | nil => exact absurd hc hcne
    | cons c0 ct =>
      have hc0 : ¬c0 = '/' := fun hh => hslash (hc ▸ List.mem_cons.mpr (Or.inl hh.symm))
      cases rest with
      | nil => exact ⟨c0, ct, by simp [joinSlash, hc], hc0⟩
      | cons c₂ rest₂ =>
        rw [joinSlash_cons_cons]
        exact ⟨c0, ct ++ '/' :: joinSlash (c₂ :: rest₂), by simp, hc0⟩

theorem initialSlashes_output (k : Nat) (hk : k ≤ 2) (acc : List (List Char))
    (hg : ∀ c ∈ acc, GoodComp c) :
    initialSlashes (List.replicate k '/' ++ joinSlash acc) = k := by
  by_cases hne : acc = []
  · subst hne
    interval_cases k <;> simp [joinSlash, initialSlashes]
  · obtain ⟨c0, t, hj, hc0⟩ := joinSlash_head acc hg hne
    rw [hj]
    interval_cases k <;> simp [initialSlashes, List.replicate_succ, hc0]

theorem normpathL_shape (cs : List Char) (hne : cs ≠ []) :
    normpathL cs = ['.'] ∨
    ∃ acc, GoodAcc (initialSlashes cs) acc ∧
      normpathL cs = List.replicate (initialSlashes cs) '/' ++ joinSlash acc ∧
      (initialSlashes cs = 0 → acc ≠ []) := by
  unfold normpathL
  rw [if_neg hne]
  dsimp only
  have hacc : GoodAcc (initialSlashes cs)
      ((splitSlash cs).foldl (normStep (initialSlashes cs)) []) :=
    foldl_normStep_good (splitSlash cs) []
      ⟨by simp, 0, [], rfl, by simp, fun _ => rfl⟩ (splitSlash_no_slash cs)
  by_cases hres : List.replicate (initialSlashes cs) '/' ++
      joinSlash ((splitSlash cs).foldl (normStep (initialSlashes cs)) []) = []
  · rw [if_pos hres]
    exact Or.inl rfl
  · rw [if_neg hres]
    refine Or.inr ⟨_, hacc, rfl, fun hk0 hacc0 => ?_⟩
    apply hres
    rw [hacc0, hk0]
    rfl

theorem normpathL_idem (cs : List Char) : normpathL (normpathL cs) = normpathL cs := by
  by_cases hcs : cs = []
  · subst hcs
    decide
  · rcases normpathL_shape cs hcs with hdot | ⟨acc, hacc, heq, hk0⟩
    · rw [hdot]
      decide
    · rw [heq]
      have hk2 : initialSlashes cs ≤ 2 := initialSlashes_le_two cs
      obtain ⟨hg, hstruct⟩ := hacc
      by_cases haccnil : acc = []
      · subst haccnil
        have hkne : initialSlashes cs ≠ 0 := fun h => (hk0 h) rfl
        set k := initialSlashes cs with hkdef
        clear_value k
        interval_cases k
        · exact absurd rfl hkne
        · decide
        · decide
      · have hyne : List.replicate (initialSlashes cs) '/' ++ joinSlash acc ≠ [] := by
          obtain ⟨c0, t, hj, _⟩ := joinSlash_head acc hg haccnil
          rw [hj]
          cases hk : initialSlashes cs <;> simp
        unfold normpathL
        rw [if_neg hyne]
        dsimp only
        rw [initialSlashes_output (initialSlashes cs) hk2 acc hg,
          splitSlash_replicate_append,
          splitSlash_joinSlash acc haccnil (fun c hc => (hg c hc).2.2),
          List.foldl_append, foldl_normStep_empties,
          foldl_normStep_id ⟨hg, hstruct⟩, if_neg hyne]

theorem normpath_idem (q : String) : normpath (normpath q) = normpath q := by
  show String.mk (normpathL (normpathL q.data)) = String.mk (normpathL q.data)
  rw [normpathL_idem]

theorem isabs_data {p : String} (h : isabs p = true) :
    ∃ rest, p.data = '/' :: rest := by
  unfold isabs at h
  cases hp : p.data with
  | nil =>
    rw [hp] at h
    exact absurd h (by simp)
  | cons c cst =>
    rw [hp] at h
    simp at h
    exact ⟨cst, by rw [h]⟩

theorem isabs_mk_slash (rest : List Char) :
    isabs (String.mk ('/' :: rest)) = true := by
  rfl

theorem initialSlashes_cons_slash (rest : List Char) :
    1 ≤ initialSlashes ('/' :: rest) := by
  unfold initialSlashes
  rw [if_pos (by simp)]
  split_ifs <;> omega

theorem isabs_normpath {p : String} (h : isabs p = true) :
    isabs (normpath p) = true := by
  obtain ⟨rest, hp⟩ := isabs_data h
  unfold normpath normpathL
  rw [hp, if_neg (by simp)]
  dsimp only
  have hk := initialSlashes_cons_slash rest
  obtain ⟨k', hkk⟩ : ∃ k', initialSlashes ('/' :: rest) = k' + 1 :=
    ⟨initialSlashes ('/' :: rest) - 1, by omega⟩
  rw [hkk, List.replicate_succ, List.cons_append, if_neg (by simp)]
  exact isabs_mk_slash _

theorem isabs_pathJoin {a : String} (b : String) (h : isabs a = true) :
    isabs (pathJoin a b) = true := by
  unfold pathJoin
  split_ifs with h1 h2
  · exact h1
  · obtain ⟨rest, hp⟩ := isabs_data h
    have hd : (a ++ b).data = '/' :: (rest ++ b.data) := by
      show a.data ++ b.data = '/' :: (rest ++ b.data)
      rw [hp]
      rfl
    unfold isabs
    rw [hd]
    simp
  · obtain ⟨rest, hp⟩ := isabs_data h
    have hd : (a ++ "/" ++ b).data = '/' :: (rest ++ '/' :: b.data) := by
      show (a.data ++ "/".data) ++ b.data = '/' :: (rest ++ '/' :: b.data)
      rw [hp]
      simp
    unfold isabs
    rw [hd]
    simp

theorem pathJoin_of_isabs (a b : String) (h : isabs b = true) :
    pathJoin a b = b := by
  unfold pathJoin
  rw [if_pos h]

theorem reverse_dropWhile_head {q : Char → Bool} {l : List Char} {c0 : Char}
    {t : List Char} (hl : l = c0 :: t)
    (hne : (l.reverse.dropWhile q).reverse ≠ []) :
    ∃ t2, (l.reverse.dropWhile q).reverse = c0 :: t2 := by
  obtain ⟨s, hs⟩ := (List.dropWhile_suffix q : l.reverse.dropWhile q <:+ l.reverse)
  have hrev : (l.reverse.dropWhile q).reverse ++ s.reverse = l := by
    rw [← List.reverse_append, hs, List.reverse_reverse]
  cases hdw : (l.reverse.dropWhile q).reverse with
  | nil => exact absurd hdw hne
  | cons d dt =>
    rw [hdw, hl, List.cons_append] at hrev
    injection hrev with h1 h2
    exact ⟨dt, by rw [h1]⟩

theorem dirname_abs {bf : String} (h : isabs bf = true) :
    isabs (dirname bf) = true := by
  obtain ⟨rest, hp⟩ := isabs_data h
  unfold dirname dirnameL
  dsimp only
  have hslashmem : '/' ∈ bf.data.reverse := by
    rw [hp]
    simp
  have hdwne : bf.data.reverse.dropWhile (fun c => decide (c ≠ '/')) ≠ [] := by
    intro hnil
    have h2 := List.dropWhile_eq_nil_iff.mp hnil '/' hslashmem
    simp at h2
  have hheadne :
      (bf.data.reverse.dropWhile (fun c => decide (c ≠ '/'))).reverse ≠ [] := by
    simpa using hdwne
  obtain ⟨t2, hhead⟩ := reverse_dropWhile_head hp hheadne
  split_ifs with hcond
  · obtain ⟨hne0, hnall⟩ := hcond
    have hex : ∃ c ∈ (bf.data.reverse.dropWhile
        (fun c => decide (c ≠ '/'))).reverse, ¬decide (c = '/') = true := by
      by_contra hall
      push_neg at hall
      exact hnall (List.all_eq_true.mpr (fun c hc => hall c hc))
    obtain ⟨c, hcmem, hcns⟩ := hex
    have hdw2ne : ((bf.data.reverse.dropWhile (fun c => decide (c ≠ '/'))).reverse.reverse.dropWhile
        (fun c => decide (c = '/'))) ≠ [] := by
      intro hnil
      have := List.dropWhile_eq_nil_iff.mp hnil c (by simpa using hcmem)
      exact hcns this
    have hstripne : ((bf.data.reverse.dropWhile (fun c => decide (c ≠ '/'))).reverse.reverse.dropWhile
        (fun c => decide (c = '/'))).reverse ≠ [] := by
      simpa using hdw2ne
    obtain ⟨t3, hstrip⟩ := reverse_dropWhile_head hhead hstripne
    rw [hstrip]
    exact isabs_mk_slash _
  · rw [hhead]
    exact isabs_mk_slash _

/-- Amended C4: a malformed probe string (empty, bare scene-relative
marker, or OUTPUT_DIR tail) resolves to the verbatim
sceneDir/sceneStem_output join, which is absolute whenever the scene path
is but is not normalised in general; a well-formed probe string starting
with the scene-relative marker, or relative, resolves to the
normalisation of its join onto the scene directory, independently of the
process working directory; and every well-formed resolution is an
absolute, normalised path. -/
theorem probe_output_dir_resolution (cwd bf p : String)
    (hbf : isabs bf = true) :
    (probeMalformed p →
      resolveOutputDir cwd bf p =
        pathJoin (dirname bf) (pathStem bf ++ "_output") ∧
      isabs (resolveOutputDir cwd bf p) = true) ∧
    (¬probeMalformed p →
      (['/', '/'].isPrefixOf p.data = true →
        resolveOutputDir cwd bf p =
          normpath (pathJoin (dirname bf) (String.mk (p.data.drop 2)))) ∧
      (¬['/', '/'].isPrefixOf p.data = true → isabs p = false →
        resolveOutputDir cwd bf p = normpath (pathJoin (dirname bf) p)) ∧
      isabs (resolveOutputDir cwd bf p) = true ∧
      normpath (resolveOutputDir cwd bf p) = resolveOutputDir cwd bf p) := by
  constructor
  · intro hm
    unfold resolveOutputDir
    rw [if_pos hm]
    exact ⟨rfl, isabs_pathJoin _ (dirname_abs hbf)⟩
  · intro hm
    unfold resolveOutputDir
    rw [if_neg hm]
    dsimp only
    by_cases hss : ['/', '/'].isPrefixOf p.data = true
    · rw [if_pos hss]
      have habs1 : isabs (normpath (pathJoin (dirname bf)
          (String.mk (p.data.drop 2)))) = true :=
        isabs_normpath (isabs_pathJoin _ (dirname_abs hbf))
      have hcollapse : abspath cwd (normpath (pathJoin (dirname bf)
            (String.mk (p.data.drop 2)))) =
          normpath (pathJoin (dirname bf) (String.mk (p.data.drop 2))) := by
        unfold abspath
        rw [pathJoin_of_isabs _ _ habs1, normpath_idem]
      rw [hcollapse]
      exact ⟨fun _ => rfl, fun hss2 _ => absurd hss hss2, habs1, normpath_idem _⟩
    · rw [if_neg hss]
      by_cases hab : isabs p = true
      · rw [if_neg (by simp [hab])]
        have hcollapse : abspath cwd p = normpath p := by
          unfold abspath
          rw [pathJoin_of_isabs _ _ hab]
        rw [hcollapse]
        refine ⟨fun h => absurd h hss, fun _ hf => ?_, isabs_normpath hab,
          normpath_idem p⟩
        rw [hab] at hf
        exact absurd hf (by simp)
      · have hab' : isabs p = false := by
          cases hx : isabs p
          · rfl
          · exact absurd hx hab
        rw [if_pos (by simp [hab'])]
        have habs1 : isabs (normpath (pathJoin (dirname bf) p)) = true :=
          isabs_normpath (isabs_pathJoin _ (dirname_abs hbf))
        have hcollapse : abspath cwd (normpath (pathJoin (dirname bf) p)) =
            normpath (pathJoin (dirname bf) p) := by
          unfold abspath
          rw [pathJoin_of_isabs _ _ habs1, normpath_idem]
        rw [hcollapse]
        exact ⟨fun h => absurd h hss, fun _ _ => rfl, habs1, normpath_idem _⟩

/-- Witness for the amended C4: a scene-relative probed output on an
absolute scene path resolves relative to the scene directory to an
absolute, normalised path. -/
theorem probe_output_dir_resolution_witness :
    resolveOutputDir "/w" "/scenes/proj/s.blend" "//render/out" =
      normpath (pathJoin (dirname "/scenes/proj/s.blend")
        (String.mk ("//render/out".data.drop 2))) ∧
    isabs (resolveOutputDir "/w" "/scenes/proj/s.blend" "//render/out") = true ∧
    normpath (resolveOutputDir "/w" "/scenes/proj/s.blend" "//render/out") =
      resolveOutputDir "/w" "/scenes/proj/s.blend" "//render/out" := by
  have h := (probe_output_dir_resolution "/w" "/scenes/proj/s.blend" "//render/out"
    (by decide)).2 (by decide)
  exact ⟨h.1 (by decide), h.2.2.1, h.2.2.2⟩

end BlenderRenderer
